import Mathlib

set_option maxHeartbeats 1000000
set_option maxRecDepth 4000

namespace JStream

/-! # Data model

JSON values as assembled by the repository's streaming assemblers
(`createStreamJsonAssembler` in `schemas.ts` and `createClarinetAssembler`
in `clarinet-stream-parser.ts`).  JavaScript numbers are modelled as
integers (every number appearing in the repository and its demo data is an
integer); strings are lists of characters; object fields keep insertion
order, as JavaScript objects and `JSON.parse` do. -/

mutual

inductive Json where
  | null : Json
  | bool (b : Bool) : Json
  | num (n : Int) : Json
  | str (s : List Char) : Json
  | arr (xs : JsonList) : Json
  | obj (fs : JsonFields) : Json
deriving DecidableEq

inductive JsonList where
  | nil : JsonList
  | cons (hd : Json) (tl : JsonList) : JsonList
deriving DecidableEq

inductive JsonFields where
  | nil : JsonFields
  | cons (k : List Char) (v : Json) (tl : JsonFields) : JsonFields
deriving DecidableEq

end

/-- Assignment `obj[key] = v` in JavaScript: overwrite an existing key in
place, otherwise append the new key (insertion order preserved).  This is
also how `JSON.parse` treats duplicate keys. -/
def objInsert : JsonFields → List Char → Json → JsonFields
  | JsonFields.nil, k, v => JsonFields.cons k v JsonFields.nil
  | JsonFields.cons k0 v0 t, k, v =>
    if k0 = k then JsonFields.cons k0 v t
    else JsonFields.cons k0 v0 (objInsert t k v)

def JsonFields.length : JsonFields → Nat
  | JsonFields.nil => 0
  | JsonFields.cons _ _ t => 1 + t.length

def JsonList.length : JsonList → Nat
  | JsonList.nil => 0
  | JsonList.cons _ t => 1 + t.length

def JsonList.append : JsonList → JsonList → JsonList
  | JsonList.nil, ys => ys
  | JsonList.cons x t, ys => JsonList.cons x (t.append ys)

def JsonFields.lookup : JsonFields → List Char → Option Json
  | JsonFields.nil, _ => none
  | JsonFields.cons k0 v0 t, k => if k0 = k then some v0 else t.lookup k

def JsonFields.hasKey (fs : JsonFields) (k : List Char) : Bool :=
  (fs.lookup k).isSome

/-- `Object.keys(x).length` in JavaScript: number of own enumerable keys.
Strings expose one index per character, arrays one index per element,
primitive scalars none. -/
def jsKeysLen : Json → Nat
  | Json.obj fs => fs.length
  | Json.str s => s.length
  | Json.arr xs => xs.length
  | _ => 0

/-- JavaScript truthiness of a JSON value: `null`, `false`, `0` and `""`
are falsy, everything else truthy. -/
def jsTruthy : Json → Bool
  | Json.null => false
  | Json.bool b => b
  | Json.num n => n ≠ 0
  | Json.str s => s ≠ []
  | _ => true

def JsonList.ofList : List Json → JsonList
  | [] => JsonList.nil
  | v :: t => JsonList.cons v (JsonList.ofList t)

/-! ## Serialization

`JSON.stringify` on the values above: no added whitespace, `"` and `\`
escaped inside strings.  (Control characters, which never occur in the
repository's data, are kept raw.) -/

def digitChar : Nat → Char
  | 0 => '0' | 1 => '1' | 2 => '2' | 3 => '3' | 4 => '4'
  | 5 => '5' | 6 => '6' | 7 => '7' | 8 => '8' | _ => '9'

def natDigitsAux : Nat → Nat → List Char
  | 0, _ => []
  | f + 1, n =>
    if n < 10 then [digitChar n]
    else natDigitsAux f (n / 10) ++ [digitChar (n % 10)]

def natDigits (n : Nat) : List Char := natDigitsAux (n + 1) n

def intChars (n : Int) : List Char :=
  if n < 0 then '-' :: natDigits (-n).toNat else natDigits n.toNat

/-- One string character as serialized by `JSON.stringify`. -/
def escChar (c : Char) : List Char :=
  if c = '\"' then ['\\', '\"']
  else if c = '\\' then ['\\', '\\']
  else [c]

def escStr : List Char → List Char
  | [] => []
  | c :: t => escChar c ++ escStr t

mutual

def serialize : Json → List Char
  | Json.null => ['n', 'u', 'l', 'l']
  | Json.bool true => ['t', 'r', 'u', 'e']
  | Json.bool false => ['f', 'a', 'l', 's', 'e']
  | Json.num n => intChars n
  | Json.str s => '\"' :: (escStr s ++ ['\"'])
  | Json.arr JsonList.nil => ['[', ']']
  | Json.arr (JsonList.cons v t) => '[' :: (serialize v ++ serializeElems t ++ [']'])
  | Json.obj JsonFields.nil => ['\x7b', '\x7d']
  | Json.obj (JsonFields.cons k v t) =>
    '\x7b' :: ('\"' :: (escStr k ++ ['\"', ':'] ++ serialize v ++ serializeFields t ++ ['\x7d']))

/-- Remaining elements of a non-empty array: `,v` for each. -/
def serializeElems : JsonList → List Char
  | JsonList.nil => []
  | JsonList.cons v t => ',' :: (serialize v ++ serializeElems t)

/-- Remaining fields of a non-empty object: `,"k":v` for each. -/
def serializeFields : JsonFields → List Char
  | JsonFields.nil => []
  | JsonFields.cons k v t =>
    ',' :: ('\"' :: (escStr k ++ ['\"', ':'] ++ serialize v ++ serializeFields t))

end

/-! ## Well-formedness: object keys pairwise distinct, recursively. -/

mutual

def jsonWf : Json → Bool
  | Json.null => true
  | Json.bool _ => true
  | Json.num _ => true
  | Json.str _ => true
  | Json.arr xs => jsonListWf xs
  | Json.obj fs => jsonFieldsWf fs

def jsonListWf : JsonList → Bool
  | JsonList.nil => true
  | JsonList.cons v t => jsonWf v && jsonListWf t

def jsonFieldsWf : JsonFields → Bool
  | JsonFields.nil => true
  | JsonFields.cons k v t => !t.hasKey k && jsonWf v && jsonFieldsWf t

end

def Json.isObj : Json → Bool
  | Json.obj _ => true
  | _ => false

/-! # A model of `JSON.parse`

`schemas.ts` hands candidate strings to the JavaScript builtin
`JSON.parse` (`parseJsonObjects`, `extractPartialObjects`,
`tryParsePartial`).  The builtin is modelled here as a recursive-descent
parser over the JSON grammar, with two documented restrictions matching
the integer data model: numbers are `-?[0-9]+` (no fraction/exponent) and
`\u` escapes are not interpreted.  Parsing is all-or-nothing, exactly as
`JSON.parse` (leading/trailing whitespace allowed, anything else after the
value is an error). -/

/-- JSON whitespace: space, tab, line feed, carriage return. -/
def isWsChar (c : Char) : Bool :=
  c.toNat = 32 || c.toNat = 9 || c.toNat = 10 || c.toNat = 13

/-- The characters `0`-`9`. -/
def isDigitChar (c : Char) : Bool :=
  48 ≤ c.toNat && c.toNat ≤ 57

def skipWs : List Char → List Char
  | [] => []
  | c :: t => if isWsChar c then skipWs t else c :: t

/-- Body of a JSON string literal after the opening quote; returns the
decoded characters and the input after the closing quote. -/
def parseStrBody : List Char → Option (List Char × List Char)
  | [] => none
  | '\"' :: t => some ([], t)
  | '\\' :: c :: t =>
    (match c with
     | '\"' => some '\"'
     | '\\' => some '\\'
     | '/' => some '/'
     | 'n' => some '\n'
     | 't' => some '\t'
     | 'r' => some '\r'
     | 'b' => some (Char.ofNat 8)
     | 'f' => some (Char.ofNat 12)
     | _ => none).bind fun e =>
      (parseStrBody t).bind fun r => some (e :: r.1, r.2)
  | ['\\'] => none
  | c :: t => (parseStrBody t).bind fun r => some (c :: r.1, r.2)

def takeDigits : List Char → List Char × List Char
  | [] => ([], [])
  | c :: t =>
    if isDigitChar c then
      let r := takeDigits t
      (c :: r.1, r.2)
    else ([], c :: t)

def digitVal (c : Char) : Nat := c.toNat - 48

def digitsToNat (ds : List Char) : Nat :=
  ds.foldl (fun a c => 10 * a + digitVal c) 0

def parseNum : List Char → Option (Json × List Char)
  | [] => none
  | c :: t =>
    if c = '-' then
      let r := takeDigits t
      if r.1 = [] then none else some (Json.num (-(digitsToNat r.1 : Int)), r.2)
    else
      let r := takeDigits (c :: t)
      if r.1 = [] then none else some (Json.num (digitsToNat r.1), r.2)

mutual

def parseValue : Nat → List Char → Option (Json × List Char)
  | 0, _ => none
  | f + 1, s =>
    match skipWs s with
    | 'n' :: 'u' :: 'l' :: 'l' :: r => some (Json.null, r)
    | 't' :: 'r' :: 'u' :: 'e' :: r => some (Json.bool true, r)
    | 'f' :: 'a' :: 'l' :: 's' :: 'e' :: r => some (Json.bool false, r)
    | '\"' :: r => (parseStrBody r).bind fun p => some (Json.str p.1, p.2)
    | '\x7b' :: r =>
      (match skipWs r with
       | '\x7d' :: r2 => some (Json.obj JsonFields.nil, r2)
       | r2 => parseMembers f r2 JsonFields.nil)
    | '[' :: r =>
      (match skipWs r with
       | ']' :: r2 => some (Json.arr JsonList.nil, r2)
       | r2 => parseElems f r2 JsonList.nil)
    | s2 => parseNum s2

/-- Members of an object after `{` (first member not yet consumed; the
empty-object case is handled by `parseValue`).  `acc` carries the fields
already parsed, updated with JavaScript assignment semantics. -/
def parseMembers : Nat → List Char → JsonFields → Option (Json × List Char)
  | 0, _, _ => none
  | f + 1, s, acc =>
    match s with
    | '\"' :: r =>
      (parseStrBody r).bind fun pk =>
        match skipWs pk.2 with
        | ':' :: r2 =>
          (parseValue f r2).bind fun pv =>
            let acc2 := objInsert acc pk.1 pv.1
            match skipWs pv.2 with
            | ',' :: r3 => parseMembers f (skipWs r3) acc2
            | '\x7d' :: r3 => some (Json.obj acc2, r3)
            | _ => none
        | _ => none
    | _ => none

def parseElems : Nat → List Char → JsonList → Option (Json × List Char)
  | 0, _, _ => none
  | f + 1, s, acc =>
    (parseValue f s).bind fun pv =>
      match skipWs pv.2 with
      | ',' :: r2 => parseElems f r2 (acc.append (JsonList.cons pv.1 JsonList.nil))
      | ']' :: r2 => some (Json.arr (acc.append (JsonList.cons pv.1 JsonList.nil)), r2)
      | _ => none

end

/-- `JSON.parse(s)`: parse one value, allow trailing whitespace only. -/
def jsonParse (s : List Char) : Option Json :=
  match parseValue (2 * s.length + 2) s with
  | some (v, rest) => if skipWs rest = [] then some v else none
  | none => none

/-! # `extractCompleteJsonObjects` (schemas.ts, lines 386-438)

A string-aware brace counter: it walks the buffer once, tracking
`inString`/`escaped`, and cuts out each substring that starts at a `{`
seen while `braceCount` was 0 and ends at the `}` that brings
`braceCount` back to 0.  The state below mirrors the loop's local
variables; `current` accumulates every character since the last completed
object and `startIndex` indexes into `current` (`-1` when unset). -/

structure ScanState where
  current : List Char
  braceCount : Int
  inString : Bool
  escaped : Bool
  startIndex : Int
  complete : List (List Char)
deriving DecidableEq

def scanInit : ScanState :=
  { current := [], braceCount := 0, inString := false, escaped := false,
    startIndex := -1, complete := [] }

/-- One iteration of the `extractCompleteJsonObjects` loop.  Every branch
appends the character to `current` first, as the source does
(`current += char`); on the completing `}` the recorded `startIndex` is
`current.length - 1` at the time of the matching `{`, i.e. the length of
`current` just before that `{` was appended. -/
def scanStep (s : ScanState) (c : Char) : ScanState :=
  if s.escaped then { s with current := s.current ++ [c], escaped := false }
  else if c = '\\' then { s with current := s.current ++ [c], escaped := true }
  else if c = '\"' then { s with current := s.current ++ [c], inString := !s.inString }
  else if s.inString then { s with current := s.current ++ [c] }
  else if c = '\x7b' then
    if s.braceCount = 0 then
      { s with current := s.current ++ [c], startIndex := (s.current.length : Int),
               braceCount := s.braceCount + 1 }
    else { s with current := s.current ++ [c], braceCount := s.braceCount + 1 }
  else if c = '\x7d' then
    if s.braceCount - 1 = 0 ∧ s.startIndex ≠ -1 then
      { s with current := [], braceCount := s.braceCount - 1, startIndex := -1,
               complete := s.complete ++ [(s.current ++ [c]).drop s.startIndex.toNat] }
    else { s with current := s.current ++ [c], braceCount := s.braceCount - 1 }
  else { s with current := s.current ++ [c] }

def scanFold (s : ScanState) (buf : List Char) : ScanState := buf.foldl scanStep s

structure ExtractResult where
  complete : List (List Char)
  incomplete : List Char
deriving DecidableEq

def extractCompleteJsonObjects (buf : List Char) : ExtractResult :=
  let s := scanFold scanInit buf
  { complete := s.complete, incomplete := s.current }

/-! # `tryParsePartial` and `extractPartialObjects` (schemas.ts, lines 296-383)

`tryParsePartial` first counts raw `{`/`}` characters (the regexes
`/{/g` and `/}/g`, which also count braces inside strings), appends the
missing closing braces and retries `JSON.parse`; if that fails it falls
back to scanning the original text for the regex
`/"([^"]+)"\s*:\s*"?([^,}"]+)"?/g` and building an object from the
captured key/value pairs, numeric-looking values converted through
`Number(...)`. -/

def jsTrim (s : List Char) : List Char :=
  ((s.dropWhile isWsChar).reverse.dropWhile isWsChar).reverse

/-- `Number(value)` for the captured value strings: trims whitespace, the
empty string is `0`, an optional sign followed by digits is an integer,
anything else is `NaN` (modelled as `none`; fractional and exponent forms,
which do not occur in this development's data, are also mapped to
`none`). -/
def jsNumberOpt (s : List Char) : Option Int :=
  match jsTrim s with
  | [] => some 0
  | '-' :: t => if t ≠ [] && t.all isDigitChar then some (-(digitsToNat t : Int)) else none
  | '+' :: t => if t ≠ [] && t.all isDigitChar then some (digitsToNat t) else none
  | t => if t.all isDigitChar then some (digitsToNat t) else none

/-- One attempt of the key/value regex at the head of `s`:
`"([^"]+)"\s*:\s*"?([^,}"]+)"?`.  Returns the two capture groups and the
input following the match. -/
def kvTryAt : List Char → Option ((List Char × List Char) × List Char)
  | '\"' :: r =>
    let pk := r.span (fun c => c ≠ '\"')
    if pk.1 = [] then none
    else
      match pk.2 with
      | '\"' :: r2 =>
        (match skipWs r2 with
         | ':' :: r3 =>
           let r4 := skipWs r3
           let r5 := match r4 with
             | '\"' :: t => t
             | _ => r4
           let pv := r5.span (fun c => c ≠ ',' && c ≠ '\x7d' && c ≠ '\"')
           if pv.1 = [] then none
           else
             let r6 := match pv.2 with
               | '\"' :: t => t
               | _ => pv.2
             some ((pk.1, pv.1), r6)
         | _ => none)
      | _ => none
  | _ => none

/-- All matches of the key/value regex (`String.prototype.match` with the
`g` flag): scan left to right, resuming after each match. -/
def kvMatches : Nat → List Char → List (List Char × List Char)
  | 0, _ => []
  | _, [] => []
  | f + 1, c :: t =>
    match kvTryAt (c :: t) with
    | some (kv, rest) => kv :: kvMatches f rest
    | none => kvMatches f t

def countChar (c : Char) (s : List Char) : Nat := s.count c

def tryParsePart (jsonStr : List Char) : Option Json :=
  let completed := jsTrim jsonStr
  let openBraces := countChar '\x7b' completed
  let closeBraces := countChar '\x7d' completed
  let completed :=
    if closeBraces < openBraces then
      completed ++ List.replicate (openBraces - closeBraces) '\x7d'
    else completed
  match jsonParse completed with
  | some v => some v
  | none =>
    let ms := kvMatches (jsonStr.length + 1) jsonStr
    let fs := ms.foldl
      (fun acc kv =>
        objInsert acc kv.1
          (match jsNumberOpt kv.2 with
           | some n => Json.num n
           | none => Json.str kv.2))
      JsonFields.nil
    if fs = JsonFields.nil then none else some (Json.obj fs)

/-- Loop state of `extractPartialObjects`: like the complete-object
scanner but without `startIndex`, pushing a parsed (or heuristically
parsed) value each time `braceCount` returns to 0 at a `}`. -/
structure PScanState where
  current : List Char
  braceCount : Int
  inString : Bool
  escaped : Bool
  partials : List Json
deriving DecidableEq

def pscanInit : PScanState :=
  { current := [], braceCount := 0, inString := false, escaped := false, partials := [] }

/-- Values pushed when `braceCount` returns to 0 over the accumulated
`current` text: the `JSON.parse` result, or a truthy `tryParsePartial`
fallback, or nothing. -/
def pPushed (cur : List Char) : List Json :=
  match jsonParse cur with
  | some v => [v]
  | none =>
    match tryParsePart cur with
    | some p => if jsTruthy p then [p] else []
    | none => []

def pscanStep (s : PScanState) (c : Char) : PScanState :=
  if s.escaped then { s with current := s.current ++ [c], escaped := false }
  else if c = '\\' then { s with current := s.current ++ [c], escaped := true }
  else if c = '\"' then { s with current := s.current ++ [c], inString := !s.inString }
  else if s.inString then { s with current := s.current ++ [c] }
  else if c = '\x7b' then { s with current := s.current ++ [c], braceCount := s.braceCount + 1 }
  else if c = '\x7d' then
    if s.braceCount - 1 = 0 then
      { s with current := [], braceCount := s.braceCount - 1,
               partials := s.partials ++ pPushed (s.current ++ [c]) }
    else { s with current := s.current ++ [c], braceCount := s.braceCount - 1 }
  else { s with current := s.current ++ [c] }

def extractPartialObjects (buf : List Char) : List Json :=
  let s := buf.foldl pscanStep pscanInit
  if jsTrim s.current ≠ [] && s.braceCount > 0 then
    match tryParsePart s.current with
    | some p => if jsTruthy p then s.partials ++ [p] else s.partials
    | none => s.partials
  else s.partials

/-! # `createStreamJsonAssembler` (schemas.ts, lines 223-293)

The buffer-rescan assembler.  Its closure state is `buffer`,
`processedLength` and `lastLoggedState`; `write` first runs the
`onChunk` block (when an `onChunk` callback is registered), then
`parseJsonObjects` on `buffer.substring(processedLength)`, advancing
`processedLength` past everything except the trailing incomplete text.
Callback invocations and `console.error` calls are recorded as an event
trace; `onComplete` is modelled as registered (the demo always registers
it), `onChunk` presence is the `hasOnChunk` flag. -/

inductive SJEvent where
  | complete (v : Json) : SJEvent
  | chunk (v : Json) : SJEvent
  | consoleError : SJEvent
deriving DecidableEq

structure SJState where
  buffer : List Char
  processedLength : Nat
  lastLogged : List Char
deriving DecidableEq

def sjInit : SJState := { buffer := [], processedLength := 0, lastLogged := [] }

/-- `JSON.stringify(partialObjects)` used as the dedup key. -/
def stringifyPartials (ps : List Json) : List Char :=
  serialize (Json.arr (JsonList.ofList ps))

/-- The `onChunk` block of `write`: recompute the partial objects over the
whole buffer, compare their serialization with `lastLoggedState`, and on a
change deliver every truthy partial having at least one key. -/
def chunkBlock (hasOnChunk : Bool) (buffer : List Char) (lastLogged : List Char) :
    List SJEvent × List Char :=
  if hasOnChunk then
    if stringifyPartials (extractPartialObjects buffer) ≠ lastLogged then
      ((extractPartialObjects buffer).filterMap fun p =>
        if jsTruthy p && decide (0 < jsKeysLen p) then some (SJEvent.chunk p) else none,
       stringifyPartials (extractPartialObjects buffer))
    else ([], lastLogged)
  else ([], lastLogged)

/-- `parseJsonObjects(input, startFrom)`: extract the complete brace
regions of `input.substring(startFrom)`, `JSON.parse` each one —
delivering it via `onComplete` or logging a `console.error` — and
return the new processed length. -/
def parseJsonObjects (input : List Char) (startFrom : Nat) : List SJEvent × Nat :=
  (((extractCompleteJsonObjects (input.drop startFrom)).complete).map fun jsonStr =>
     match jsonParse jsonStr with
     | some v => SJEvent.complete v
     | none => SJEvent.consoleError,
   startFrom + ((input.drop startFrom).length -
     (extractCompleteJsonObjects (input.drop startFrom)).incomplete.length))

def sjWrite (hasOnChunk : Bool) (st : SJState) (chunk : List Char) :
    SJState × List SJEvent :=
  ({ buffer := st.buffer ++ chunk,
     processedLength := (parseJsonObjects (st.buffer ++ chunk) st.processedLength).2,
     lastLogged := (chunkBlock hasOnChunk (st.buffer ++ chunk) st.lastLogged).2 },
   (chunkBlock hasOnChunk (st.buffer ++ chunk) st.lastLogged).1 ++
     (parseJsonObjects (st.buffer ++ chunk) st.processedLength).1)

/-- `close()`: one more `parseJsonObjects` pass if unprocessed text
remains; no state of interest survives it, so only the events are
returned. -/
def sjClose (st : SJState) : List SJEvent :=
  if st.processedLength < st.buffer.length then
    (parseJsonObjects st.buffer st.processedLength).1
  else []

def sjRun (hasOnChunk : Bool) (chunks : List (List Char)) : SJState × List SJEvent :=
  chunks.foldl
    (fun acc c =>
      let r := sjWrite hasOnChunk acc.1 c
      (r.1, acc.2 ++ r.2))
    (sjInit, [])

/-- A whole session: every `write`, then `close`. -/
def sjSession (hasOnChunk : Bool) (chunks : List (List Char)) : List SJEvent :=
  (sjRun hasOnChunk chunks).2 ++ sjClose (sjRun hasOnChunk chunks).1

def completesOf (evs : List SJEvent) : List Json :=
  evs.filterMap fun e =>
    match e with
    | SJEvent.complete v => some v
    | _ => none

def chunksOf (evs : List SJEvent) : List Json :=
  evs.filterMap fun e =>
    match e with
    | SJEvent.chunk v => some v
    | _ => none

def errorCount (evs : List SJEvent) : Nat :=
  evs.count SJEvent.consoleError

/-! ## Fuel measures and helper predicates used by the parser lemmas -/

mutual

def jfuel : Json → Nat
  | Json.null => 1
  | Json.bool _ => 1
  | Json.num _ => 1
  | Json.str _ => 1
  | Json.arr xs => 1 + lfuel xs
  | Json.obj fs => 1 + mfuel fs

def lfuel : JsonList → Nat
  | JsonList.nil => 1
  | JsonList.cons v t => 1 + jfuel v + lfuel t

def mfuel : JsonFields → Nat
  | JsonFields.nil => 1
  | JsonFields.cons _ v t => 1 + jfuel v + mfuel t

end

/-- The characters that may legally follow a serialized value inside a
larger serialized value (or nothing at all). -/
def goodRest : List Char → Prop
  | [] => True
  | c :: _ => c = ',' ∨ c = '\x7d' ∨ c = ']'

def JsonFields.appendF : JsonFields → JsonFields → JsonFields
  | JsonFields.nil, gs => gs
  | JsonFields.cons k v t, gs => JsonFields.cons k v (t.appendF gs)

/-- Fold of JavaScript assignments `acc[k] = v` over a field list. -/
def insertAll (acc : JsonFields) : JsonFields → JsonFields
  | JsonFields.nil => acc
  | JsonFields.cons k v t => insertAll (objInsert acc k v) t

/-- Concatenated serializations of a list of top-level values. -/
def serializeAll (os : List Json) : List Char :=
  (os.map serialize).flatten

/-- The claim C6 notion of a shallow structural subset: every field of
`s` appears in `f` with the same value. -/
def fieldsSubsetB : JsonFields → JsonFields → Bool
  | JsonFields.nil, _ => true
  | JsonFields.cons k v t, ff => decide (ff.lookup k = some v) && fieldsSubsetB t ff

def structSubsetB : Json → Json → Bool
  | Json.obj sf, Json.obj ff => fieldsSubsetB sf ff
  | _, _ => false

/-! # The clarinet assembler (`clarinet-stream-parser.ts`, lines 13-217)

The event *handlers* below are translated from the source file.  The
events themselves are produced by the external `clarinet` library, which
is not part of this repository; the event stream is therefore

Modelled from the spec: the Lexical Scanner / Incremental Value Builder of
spec sections 4.1-4.2 applied to the concatenated input — a SAX walk of
each well-formed top-level value (`openobject`/`key`/`value`/
`closeobject`, `openarray`/`closearray`), and for malformed text the
Recovery Policy of section 4.4: an `error` event, then resumption of
scanning at the next character.  Two simplifications are recorded here:
the first key of an object is always delivered as a separate `key` event
(clarinet may pass it as the `openobject` argument; the handler treats
both identically), and fragmentation is ignored because the spec's
scanner makes the total event stream depend only on the concatenation of
the fragments (spec section 8, fragmentation invariance). -/

inductive CEvent where
  | openobject : CEvent
  | closeobject : CEvent
  | openarray : CEvent
  | closearray : CEvent
  | key (k : List Char) : CEvent
  | value (v : Json) : CEvent
  | error : CEvent
deriving DecidableEq

mutual

def cValue : Nat → List Char → Option (List CEvent × List Char)
  | 0, _ => none
  | f + 1, s =>
    match skipWs s with
    | 'n' :: 'u' :: 'l' :: 'l' :: r => some ([CEvent.value Json.null], r)
    | 't' :: 'r' :: 'u' :: 'e' :: r => some ([CEvent.value (Json.bool true)], r)
    | 'f' :: 'a' :: 'l' :: 's' :: 'e' :: r => some ([CEvent.value (Json.bool false)], r)
    | '\"' :: r => (parseStrBody r).bind fun p => some ([CEvent.value (Json.str p.1)], p.2)
    | '\x7b' :: r =>
      (match skipWs r with
       | '\x7d' :: r2 => some ([CEvent.openobject, CEvent.closeobject], r2)
       | r2 => (cMembers f r2).bind fun p => some (CEvent.openobject :: p.1, p.2))
    | '[' :: r =>
      (match skipWs r with
       | ']' :: r2 => some ([CEvent.openarray, CEvent.closearray], r2)
       | r2 => (cElems f r2).bind fun p => some (CEvent.openarray :: p.1, p.2))
    | s2 => (parseNum s2).bind fun p => some ([CEvent.value p.1], p.2)

def cMembers : Nat → List Char → Option (List CEvent × List Char)
  | 0, _ => none
  | f + 1, s =>
    match s with
    | '\"' :: r =>
      (parseStrBody r).bind fun pk =>
        match skipWs pk.2 with
        | ':' :: r2 =>
          (cValue f r2).bind fun pv =>
            match skipWs pv.2 with
            | ',' :: r3 =>
              (cMembers f (skipWs r3)).bind fun pm =>
                some (CEvent.key pk.1 :: (pv.1 ++ pm.1), pm.2)
            | '\x7d' :: r3 => some (CEvent.key pk.1 :: (pv.1 ++ [CEvent.closeobject]), r3)
            | _ => none
        | _ => none
    | _ => none

def cElems : Nat → List Char → Option (List CEvent × List Char)
  | 0, _ => none
  | f + 1, s =>
    (cValue f s).bind fun pv =>
      match skipWs pv.2 with
      | ',' :: r2 => (cElems f r2).bind fun pe => some (pv.1 ++ pe.1, pe.2)
      | ']' :: r2 => some (pv.1 ++ [CEvent.closearray], r2)
      | _ => none

end

/-- Top-level event stream: well-formed values produce their SAX events;
at malformed text an `error` event is emitted and scanning resumes one
character further on. -/
def cTop : Nat → List Char → List CEvent
  | 0, _ => []
  | f + 1, s =>
    match skipWs s with
    | [] => []
    | s2 =>
      match cValue (2 * s2.length + 2) s2 with
      | some (evs, rest) => evs ++ cTop f rest
      | none => CEvent.error :: cTop f (s2.drop 1)

def clarinetEvents (s : List Char) : List CEvent := cTop (s.length + 1) s

/-- A container under construction (the mutable object/array the source
keeps in `current`). -/
inductive CCur where
  | cobj (fs : JsonFields) : CCur
  | carr (xs : JsonList) : CCur
deriving DecidableEq

def CCur.finish : CCur → Json
  | CCur.cobj fs => Json.obj fs
  | CCur.carr xs => Json.arr xs

/-- How the container being opened was attached into its parent at
open time (`current.push(new)` / `current[key] = new` / not at all). -/
inductive CSlot where
  | atKey (k : List Char) : CSlot
  | inArr : CSlot
  | noslot : CSlot
deriving DecidableEq

structure CFrame where
  saved : Option CCur
  slot : CSlot
deriving DecidableEq

/-- State of the clarinet handlers (`stack`, `current`, `key`,
`objectDepth`), plus the `onComplete` trace.  The source mutates the
parent through an alias after attaching the child at open time; the pure
rendering records the attachment slot in the stack frame and performs the
assignment when the child is closed, which is observationally the same
for the event streams the scanner produces. -/
structure CHState where
  stack : List CFrame
  current : Option CCur
  key : Option (List Char)
  objectDepth : Int
  completes : List Json
deriving DecidableEq

def cInit : CHState :=
  { stack := [], current := none, key := none, objectDepth := 0, completes := [] }

def attachChild (saved : Option CCur) (slot : CSlot) (child : Json) : Option CCur :=
  match saved, slot with
  | some (CCur.cobj fs), CSlot.atKey k => some (CCur.cobj (objInsert fs k child))
  | some (CCur.carr xs), CSlot.inArr =>
    some (CCur.carr (xs.append (JsonList.cons child JsonList.nil)))
  | s, _ => s

/-- The `openarray`/nested-`openobject` attachment logic: where the new
container lands in the old `current`, and the new `key` value. -/
def openSlot (cur : Option CCur) (key : Option (List Char)) : CSlot × Option (List Char) :=
  match cur, key with
  | some (CCur.carr _), k => (CSlot.inArr, k)
  | some (CCur.cobj _), some k => (CSlot.atKey k, none)
  | _, k => (CSlot.noslot, k)

def cHandle (st : CHState) : CEvent → CHState
  | CEvent.openobject =>
    let d := st.objectDepth + 1
    if d = 1 then
      { st with objectDepth := d, current := some (CCur.cobj JsonFields.nil) }
    else
      let sl := openSlot st.current st.key
      { st with objectDepth := d,
                stack := { saved := st.current, slot := sl.1 } :: st.stack,
                current := some (CCur.cobj JsonFields.nil),
                key := sl.2 }
  | CEvent.closeobject =>
    let d := st.objectDepth - 1
    if d = 0 then
      match st.current with
      | some c =>
        { st with objectDepth := d, current := none, completes := st.completes ++ [c.finish] }
      | none => { st with objectDepth := d }
    else
      match st.stack with
      | [] => { st with objectDepth := d }
      | fr :: rest =>
        { st with objectDepth := d, stack := rest,
                  current :=
                    match st.current with
                    | some c => attachChild fr.saved fr.slot c.finish
                    | none => fr.saved }
  | CEvent.openarray =>
    let sl := openSlot st.current st.key
    { st with stack := { saved := st.current, slot := sl.1 } :: st.stack,
              current := some (CCur.carr JsonList.nil),
              key := sl.2 }
  | CEvent.closearray =>
    (match st.stack with
     | [] => st
     | fr :: rest =>
       { st with stack := rest,
                 current :=
                   match st.current with
                   | some c => attachChild fr.saved fr.slot c.finish
                   | none => fr.saved })
  | CEvent.key k => { st with key := some k }
  | CEvent.value v =>
    (match st.current, st.key with
     | some (CCur.cobj fs), some k =>
       { st with current := some (CCur.cobj (objInsert fs k v)), key := none }
     | some (CCur.carr _), some _ => { st with key := none }
     | some (CCur.carr xs), none =>
       { st with current := some (CCur.carr (xs.append (JsonList.cons v JsonList.nil))) }
     | _, _ => st)
  | CEvent.error => st

/-- The `onComplete` trace of the clarinet assembler over the
concatenation of the input fragments. -/
def clarinetCompletes (input : List Char) : List Json :=
  ((clarinetEvents input).foldl cHandle cInit).completes

/-! # Shallow snapshot of the in-progress top-level value

Modelled from the spec: sections 3/4.3 — the shallow snapshot of the
in-progress top-level value contains exactly the keys observed so far
whose values are already complete; a key whose value is incomplete (an
unterminated string, an open nested container, or a number token that may
still be extended — spec section 4.1's greedy number rule) is omitted.
Returns `none` when the buffer holds no in-progress top-level object
(nothing open, or the buffer's value already closed). -/

def isNumJson : Json → Bool
  | Json.num _ => true
  | _ => false

def shallowLoop : Nat → List Char → JsonFields → JsonFields
  | 0, _, acc => acc
  | f + 1, s, acc =>
    match s with
    | '\"' :: r =>
      (match parseStrBody r with
       | none => acc
       | some (k, r1) =>
         match skipWs r1 with
         | ':' :: r2 =>
           (match parseValue (2 * r2.length + 2) r2 with
            | none => acc
            | some (v, r3) =>
              if isNumJson v && decide (r3 = []) then acc
              else
                -- member complete: keep it, continue only at a comma
                match skipWs r3 with
                | ',' :: r4 => shallowLoop f (skipWs r4) (objInsert acc k v)
                | _ => objInsert acc k v)
         | _ => acc)
    | _ => acc

def specShallowSnapshot (buf : List Char) : Option Json :=
  if (jsonParse buf).isSome then none
  else
    match skipWs buf with
    | '\x7b' :: r => some (Json.obj (shallowLoop (buf.length + 1) (skipWs r) JsonFields.nil))
    | _ => none

/-- A scan state with its `complete` list erased. -/
def stripC (s : ScanState) : ScanState := { s with complete := [] }

/-- The scanner state is reconstructible by rescanning its own `current`
text from the initial state: `current` is reset only when the other scan
variables are back to their initial values. -/
def Restartable (s : ScanState) : Prop :=
  scanFold scanInit s.current = stripC s

/-- Characters with no effect on the scanner state outside strings. -/
def inertChar (c : Char) : Bool :=
  !(c = '\\' || c = '\"' || c = '\x7b' || c = '\x7d')

/-- Text whose scan only appends to `current`, from any state outside a
string with at least one open brace. -/
def AppendOnly (X : List Char) : Prop :=
  ∀ s : ScanState, s.escaped = false → s.inString = false → 1 ≤ s.braceCount →
    scanFold s X = { s with current := s.current ++ X }

/-- A scan state that is clean except for an accumulated `complete` list. -/
def cleanState (K : List (List Char)) : ScanState :=
  { current := [], braceCount := 0, inString := false, escaped := false,
    startIndex := -1, complete := K }

/-- The invariant the `write` loop maintains: `processedLength` marks
exactly the boundary after which the buffer holds the scanner's leftover
`incomplete` text. -/
def SJInv (st : SJState) : Prop :=
  st.processedLength ≤ st.buffer.length ∧
  st.buffer.drop st.processedLength = (extractCompleteJsonObjects st.buffer).incomplete

def Json.isScalar : Json → Bool
  | Json.null => true
  | Json.bool _ => true
  | Json.num _ => true
  | Json.str _ => true
  | _ => false

/-- Head of a list is not a digit (or the list is empty): the contexts in
which a serialized number can end. -/
def headNotDigit : List Char → Prop
  | [] => True
  | c :: _ => isDigitChar c = false

/-- Input text containing no `\x7b` and no `\x7d` character. -/
def braceFree (t : List Char) : Prop := ∀ c ∈ t, c ≠ '\x7b' ∧ c ≠ '\x7d'

/-- Invariant of the `extractCompleteJsonObjects` scanner: `startIndex`,
when set, points at a `\x7b` inside `current`, and every completed region
starts with `\x7b` and ends with `\x7d`. -/
def ScanOk (s : ScanState) : Prop :=
  (s.startIndex = -1 ∨
    (0 ≤ s.startIndex ∧ s.startIndex < (s.current.length : Int) ∧
      s.current[s.startIndex.toNat]? = some '\x7b')) ∧
  ∀ r ∈ s.complete, r.head? = some '\x7b' ∧ r.getLast? = some '\x7d'

/-- The three demo fragments of `index.ts` (`testChunks`). -/
def demoChunks : List (List Char) :=
  ["\x7b\"id\":1,\"name\":\"Jo".toList,
   "hn Doe\",\"email\":\"john@example.com\"\x7d\x7b\"id\":2,\"name\":\"A".toList,
   "lice\"\x7d\x7b\"id\":3,\"name\":\"Bob Smith\",\"email\":\"bob@example.com\"\x7d".toList]

/-- The three persons the demo fragments encode. -/
def demoPersons : List Json :=
  [Json.obj (JsonFields.cons "id".toList (Json.num 1)
     (JsonFields.cons "name".toList (Json.str "John Doe".toList)
       (JsonFields.cons "email".toList (Json.str "john@example.com".toList) JsonFields.nil))),
   Json.obj (JsonFields.cons "id".toList (Json.num 2)
     (JsonFields.cons "name".toList (Json.str "Alice".toList) JsonFields.nil)),
   Json.obj (JsonFields.cons "id".toList (Json.num 3)
     (JsonFields.cons "name".toList (Json.str "Bob Smith".toList)
       (JsonFields.cons "email".toList (Json.str "bob@example.com".toList) JsonFields.nil)))]

/-! # Lemmas: decimal digits -/

theorem digitVal_digitChar {d : Nat} (h : d < 10) : digitVal (digitChar d) = d := by
  interval_cases d <;> decide

theorem isDigit_digitChar {d : Nat} (h : d < 10) : isDigitChar (digitChar d) = true := by
  interval_cases d <;> decide

theorem digitsToNat_append_one (xs : List Char) (c : Char) :
    digitsToNat (xs ++ [c]) = 10 * digitsToNat xs + digitVal c := by
  simp [digitsToNat, List.foldl_append]

theorem natDigitsAux_spec :
    ∀ f n, n < f →
      natDigitsAux f n ≠ [] ∧ (∀ c ∈ natDigitsAux f n, isDigitChar c = true) ∧
        digitsToNat (natDigitsAux f n) = n := by
  intro f
  induction f with
  | zero => intro n hn; omega
  | succ f ih =>
    intro n hn
    by_cases h10 : n < 10
    · refine ⟨by simp [natDigitsAux, h10], ?_, ?_⟩
      · intro c hc
        simp [natDigitsAux, h10] at hc
        subst hc; exact isDigit_digitChar h10
      · simp [natDigitsAux, h10, digitsToNat, digitVal_digitChar h10]
    · have hdiv : n / 10 < f := by
        have h1 : n / 10 < n := Nat.div_lt_self (by omega) (by omega)
        omega
      obtain ⟨hne, hdig, hval⟩ := ih (n / 10) hdiv
      refine ⟨by simp [natDigitsAux, h10], ?_, ?_⟩
      · intro c hc
        simp only [natDigitsAux, h10, if_false, List.mem_append, List.mem_singleton] at hc
        rcases hc with hc | hc
        · exact hdig c hc
        · subst hc; exact isDigit_digitChar (Nat.mod_lt _ (by omega))
      · simp only [natDigitsAux, h10, if_false]
        rw [digitsToNat_append_one, hval, digitVal_digitChar (Nat.mod_lt _ (by omega))]
        omega

theorem natDigits_spec (n : Nat) :
    natDigits n ≠ [] ∧ (∀ c ∈ natDigits n, isDigitChar c = true) ∧
      digitsToNat (natDigits n) = n :=
  natDigitsAux_spec (n + 1) n (by omega)

theorem isDigitChar_bounds {c : Char} (h : isDigitChar c = true) :
    48 ≤ c.toNat ∧ c.toNat ≤ 57 := by
  simpa [isDigitChar] using h

theorem digit_not_ws {c : Char} (h : isDigitChar c = true) : isWsChar c = false := by
  obtain ⟨h1, h2⟩ := isDigitChar_bounds h
  simp [isWsChar]; omega

theorem digit_ne {c : Char} (h : isDigitChar c = true) {d : Char}
    (hd : isDigitChar d = false) : c ≠ d := by
  intro he; subst he; simp [h] at hd

theorem takeDigits_spec :
    ∀ (ds rest : List Char), (∀ c ∈ ds, isDigitChar c = true) → headNotDigit rest →
      takeDigits (ds ++ rest) = (ds, rest) := by
  intro ds
  induction ds with
  | nil =>
    intro rest _ hrest
    cases rest with
    | nil => rfl
    | cons c t => simp [takeDigits, headNotDigit] at hrest ⊢; simp [hrest]
  | cons c t ih =>
    intro rest hds hrest
    have hc : isDigitChar c = true := hds c (by simp)
    have := ih rest (fun x hx => hds x (by simp [hx])) hrest
    simp [takeDigits, hc, this]

theorem goodRest_headNotDigit {rest : List Char} (h : goodRest rest) :
    headNotDigit rest := by
  cases rest with
  | nil => trivial
  | cons c t =>
    simp only [goodRest] at h
    rcases h with h | h | h <;> subst h <;> simp only [headNotDigit] <;> decide

theorem parseNum_intChars (n : Int) (rest : List Char) (hrest : headNotDigit rest) :
    parseNum (intChars n ++ rest) = some (Json.num n, rest) := by
  by_cases hn : n < 0
  · obtain ⟨hne, hdig, hval⟩ := natDigits_spec (-n).toNat
    simp only [intChars, hn, if_true, List.cons_append]
    rw [parseNum]
    simp only [if_pos rfl]
    rw [takeDigits_spec _ _ hdig hrest]
    simp [hne, hval]
    omega
  · obtain ⟨hne, hdig, hval⟩ := natDigits_spec n.toNat
    obtain ⟨c, t, hct⟩ : ∃ c t, natDigits n.toNat = c :: t := by
      cases h : natDigits n.toNat with
      | nil => exact absurd h hne
      | cons c t => exact ⟨c, t, rfl⟩
    have hc : isDigitChar c = true := hdig c (by rw [hct]; simp)
    have hcm : c ≠ '-' := digit_ne hc (by decide)
    simp only [intChars, hn, if_false, hct, List.cons_append]
    rw [parseNum]
    simp only [if_neg hcm]
    rw [show c :: (t ++ rest) = (c :: t) ++ rest from rfl, ← hct,
        takeDigits_spec _ _ hdig hrest]
    simp [hne, hval]
    omega

/-! # Lemmas: string literals -/

theorem parseStrBody_other {c : Char} (t : List Char) (h1 : c ≠ '\"') (h2 : c ≠ '\\') :
    parseStrBody (c :: t) = (parseStrBody t).bind fun r => some (c :: r.1, r.2) := by
  rw [parseStrBody.eq_def]
  split
  · simp_all
  · simp_all
  · rename_i heq; rw [List.cons.injEq] at heq; exact absurd heq.1 h2
  · rename_i heq; rw [List.cons.injEq] at heq; exact absurd heq.1 h2
  · rename_i heq
    rw [List.cons.injEq] at heq
    obtain ⟨rfl, rfl⟩ := heq
    rfl

theorem parseStrBody_escStr :
    ∀ (k rest : List Char), parseStrBody (escStr k ++ '\"' :: rest) = some (k, rest) := by
  intro k
  induction k with
  | nil => intro rest; rfl
  | cons c t ih =>
    intro rest
    by_cases hq : c = '\"'
    · subst hq
      have h1 : escStr ('\"' :: t) ++ '\"' :: rest =
          '\\' :: '\"' :: (escStr t ++ '\"' :: rest) := by
        simp [escStr, escChar]
      rw [h1]
      simp [parseStrBody, ih rest]
    · by_cases hb : c = '\\'
      · subst hb
        have h1 : escStr ('\\' :: t) ++ '\"' :: rest =
            '\\' :: '\\' :: (escStr t ++ '\"' :: rest) := by
          simp [escStr, escChar]
        rw [h1]
        simp [parseStrBody, ih rest]
      · have h1 : escStr (c :: t) ++ '\"' :: rest = c :: (escStr t ++ '\"' :: rest) := by
          simp [escStr, escChar, hq, hb]
        rw [h1, parseStrBody_other _ hq hb]
        simp [ih rest]

/-! # Lemmas: head-character dispatch of `parseValue` -/

theorem skipWs_cons {c : Char} (t : List Char) (h : isWsChar c = false) :
    skipWs (c :: t) = c :: t := by
  simp [skipWs, h]

theorem parseValue_digitHead (f : Nat) {c : Char} (t : List Char)
    (hc : isDigitChar c = true) :
    parseValue (f + 1) (c :: t) = parseNum (c :: t) := by
  have hws := skipWs_cons t (digit_not_ws hc)
  rw [parseValue.eq_def]
  simp only [hws]
  split
  · rename_i heq; rw [List.cons.injEq] at heq
    obtain ⟨h1, -⟩ := heq; subst h1; exact absurd hc (by decide)
  · rename_i heq; rw [List.cons.injEq] at heq
    obtain ⟨h1, -⟩ := heq; subst h1; exact absurd hc (by decide)
  · rename_i heq; rw [List.cons.injEq] at heq
    obtain ⟨h1, -⟩ := heq; subst h1; exact absurd hc (by decide)
  · rename_i heq; rw [List.cons.injEq] at heq
    obtain ⟨h1, -⟩ := heq; subst h1; exact absurd hc (by decide)
  · rename_i heq; rw [List.cons.injEq] at heq
    obtain ⟨h1, -⟩ := heq; subst h1; exact absurd hc (by decide)
  · rename_i heq; rw [List.cons.injEq] at heq
    obtain ⟨h1, -⟩ := heq; subst h1; exact absurd hc (by decide)
  · rfl

theorem parseValue_minusHead (f : Nat) (t : List Char) :
    parseValue (f + 1) ('-' :: t) = parseNum ('-' :: t) := rfl

theorem serialize_head (v : Json) :
    ∃ c t0, serialize v = c :: t0 ∧ isWsChar c = false ∧ c ≠ ']' := by
  cases v with
  | null => exact ⟨'n', _, rfl, by decide, by decide⟩
  | bool b =>
    cases b with
    | false => exact ⟨'f', _, rfl, by decide, by decide⟩
    | true => exact ⟨'t', _, rfl, by decide, by decide⟩
  | num n =>
    by_cases hn : n < 0
    · exact ⟨'-', natDigits (-n).toNat, by simp [serialize, intChars, hn], by decide, by decide⟩
    · obtain ⟨hne, hdig, -⟩ := natDigits_spec n.toNat
      obtain ⟨c, t, hct⟩ : ∃ c t, natDigits n.toNat = c :: t := by
        cases h : natDigits n.toNat with
        | nil => exact absurd h hne
        | cons c t => exact ⟨c, t, rfl⟩
      have hc : isDigitChar c = true := hdig c (by rw [hct]; simp)
      exact ⟨c, t, by simp [serialize, intChars, hn, hct],
        digit_not_ws hc, digit_ne hc (by decide)⟩
  | str s => exact ⟨'\"', _, rfl, by decide, by decide⟩
  | arr xs =>
    cases xs with
    | nil => exact ⟨'[', _, rfl, by decide, by decide⟩
    | cons v t => exact ⟨'[', _, rfl, by decide, by decide⟩
  | obj fs =>
    cases fs with
    | nil => exact ⟨'\x7b', _, rfl, by decide, by decide⟩
    | cons k v t => exact ⟨'\x7b', _, rfl, by decide, by decide⟩

theorem goodRest_elems (t : JsonList) (rest : List Char) :
    goodRest (serializeElems t ++ ']' :: rest) := by
  cases t <;> simp [serializeElems, goodRest]

theorem goodRest_fields (t : JsonFields) (rest : List Char) :
    goodRest (serializeFields t ++ '\x7d' :: rest) := by
  cases t <;> simp [serializeFields, goodRest]

theorem JsonList.append_snoc :
    ∀ (a : JsonList) (v : Json) (w : JsonList),
      (a.append (JsonList.cons v JsonList.nil)).append w = a.append (JsonList.cons v w)
  | JsonList.nil, _, _ => rfl
  | JsonList.cons x t, v, w => by
    simp [JsonList.append, JsonList.append_snoc t v w]

theorem JsonFields.hasKey_nil (k : List Char) : JsonFields.nil.hasKey k = false := rfl

theorem JsonFields.hasKey_cons (k0 : List Char) (v0 : Json) (t : JsonFields) (k : List Char) :
    (JsonFields.cons k0 v0 t).hasKey k = (decide (k0 = k) || t.hasKey k) := by
  by_cases h : k0 = k <;> simp [JsonFields.hasKey, JsonFields.lookup, h]

theorem objInsert_notKey :
    ∀ (acc : JsonFields) (k : List Char) (v : Json), acc.hasKey k = false →
      objInsert acc k v = acc.appendF (JsonFields.cons k v JsonFields.nil)
  | JsonFields.nil, _, _, _ => rfl
  | JsonFields.cons k0 v0 t, k, v, h => by
    rw [JsonFields.hasKey_cons] at h
    simp only [Bool.or_eq_false_iff, decide_eq_false_iff_not] at h
    simp [objInsert, h.1, JsonFields.appendF, objInsert_notKey t k v h.2]

theorem JsonFields.appendF_assoc :
    ∀ (a b c : JsonFields), (a.appendF b).appendF c = a.appendF (b.appendF c)
  | JsonFields.nil, _, _ => rfl
  | JsonFields.cons k v t, b, c => by
    simp [JsonFields.appendF, JsonFields.appendF_assoc t b c]

theorem JsonFields.hasKey_appendF :
    ∀ (a b : JsonFields) (k : List Char),
      (a.appendF b).hasKey k = (a.hasKey k || b.hasKey k)
  | JsonFields.nil, _, _ => by simp [JsonFields.appendF, JsonFields.hasKey_nil]
  | JsonFields.cons k0 v0 t, b, k => by
    simp [JsonFields.appendF, JsonFields.hasKey_cons, JsonFields.hasKey_appendF t b k,
      Bool.or_assoc]

theorem JsonFields.appendF_nil :
    ∀ a : JsonFields, a.appendF JsonFields.nil = a
  | JsonFields.nil => rfl
  | JsonFields.cons k v t => by
    simp [JsonFields.appendF, JsonFields.appendF_nil t]

theorem insertAll_eq_append :
    ∀ (fs acc : JsonFields), jsonFieldsWf fs = true →
      (∀ k2, fs.hasKey k2 = true → acc.hasKey k2 = false) →
      insertAll acc fs = acc.appendF fs
  | JsonFields.nil, acc, _, _ => by
    simp [insertAll, JsonFields.appendF_nil]
  | JsonFields.cons k v t, acc, hwf, hdisj => by
    simp only [jsonFieldsWf, Bool.and_eq_true] at hwf
    have hak : acc.hasKey k = false :=
      hdisj k (by rw [JsonFields.hasKey_cons]; simp)
    have h1 : insertAll acc (JsonFields.cons k v t) = insertAll (objInsert acc k v) t := rfl
    rw [h1, objInsert_notKey acc k v hak]
    rw [insertAll_eq_append t _ hwf.2 ?_]
    · rw [JsonFields.appendF_assoc]
      rfl
    · intro k2 hk2
      rw [JsonFields.hasKey_appendF]
      have h2 : acc.hasKey k2 = false :=
        hdisj k2 (by rw [JsonFields.hasKey_cons, hk2]; simp)
      have h3 : k ≠ k2 := by
        intro he
        subst he
        have := hwf.1.1
        simp [hk2] at this
      simp [h2, JsonFields.hasKey_cons, JsonFields.hasKey_nil, h3]

theorem insertAll_nil_of_wf (fs : JsonFields) (h : jsonFieldsWf fs = true) :
    insertAll JsonFields.nil fs = fs := by
  rw [insertAll_eq_append fs JsonFields.nil h (fun k2 _ => rfl)]
  rfl

/-! # The round-trip theorem for the `JSON.parse` model -/

theorem rtP : ∀ f : Nat,
    (∀ v rest, jfuel v ≤ f → goodRest rest → jsonWf v = true →
      parseValue f (serialize v ++ rest) = some (v, rest)) ∧
    (∀ v t acc rest, lfuel (JsonList.cons v t) ≤ f → goodRest rest →
      jsonWf v = true → jsonListWf t = true →
      parseElems f (serialize v ++ (serializeElems t ++ ']' :: rest)) acc =
        some (Json.arr (acc.append (JsonList.cons v t)), rest)) ∧
    (∀ k v t acc rest, mfuel (JsonFields.cons k v t) ≤ f → goodRest rest →
      jsonWf v = true → jsonFieldsWf t = true →
      parseMembers f
          ('\"' :: (escStr k ++ '\"' :: ':' :: (serialize v ++ (serializeFields t ++ '\x7d' :: rest)))) acc =
        some (Json.obj (insertAll acc (JsonFields.cons k v t)), rest)) := by
  intro f
  induction f with
  | zero =>
    refine ⟨?_, ?_, ?_⟩
    · intro v rest hf _ _
      exact absurd hf (by cases v <;> simp [jfuel])
    · intro v t acc rest hf _ _ _
      exact absurd hf (by simp [lfuel])
    · intro k v t acc rest hf _ _ _
      exact absurd hf (by simp [mfuel])
  | succ f ih =>
    obtain ⟨ihV, ihE, ihM⟩ := ih
    refine ⟨?_, ?_, ?_⟩
    · -- parseValue
      intro v rest hf hrest hwf
      cases v with
      | null => rfl
      | bool b => cases b <;> rfl
      | num n =>
        have hnd : headNotDigit rest := goodRest_headNotDigit hrest
        by_cases hn : n < 0
        · have h1 : serialize (Json.num n) ++ rest = '-' :: (natDigits (-n).toNat ++ rest) := by
            simp [serialize, intChars, hn]
          rw [h1, parseValue_minusHead]
          rw [show '-' :: (natDigits (-n).toNat ++ rest) = intChars n ++ rest by
            simp [intChars, hn]]
          exact parseNum_intChars n rest hnd
        · obtain ⟨hne, hdig, -⟩ := natDigits_spec n.toNat
          obtain ⟨c, t, hct⟩ : ∃ c t, natDigits n.toNat = c :: t := by
            cases h : natDigits n.toNat with
            | nil => exact absurd h hne
            | cons c t => exact ⟨c, t, rfl⟩
          have hc : isDigitChar c = true := hdig c (by rw [hct]; simp)
          have h1 : serialize (Json.num n) ++ rest = c :: (t ++ rest) := by
            simp [serialize, intChars, hn, hct]
          rw [h1, parseValue_digitHead f _ hc]
          rw [show c :: (t ++ rest) = intChars n ++ rest by simp [intChars, hn, hct]]
          exact parseNum_intChars n rest hnd
      | str s =>
        have h1 : serialize (Json.str s) ++ rest = '\"' :: (escStr s ++ '\"' :: rest) := by
          simp [serialize]
        rw [h1]
        have h2 : parseValue (f + 1) ('\"' :: (escStr s ++ '\"' :: rest)) =
            (parseStrBody (escStr s ++ '\"' :: rest)).bind fun p =>
              some (Json.str p.1, p.2) := rfl
        rw [h2, parseStrBody_escStr]
        rfl
      | arr xs =>
        cases xs with
        | nil => rfl
        | cons v t =>
          have hw : jsonWf v = true ∧ jsonListWf t = true := by
            have : jsonListWf (JsonList.cons v t) = true := hwf
            simpa [jsonListWf] using this
          have hfl : lfuel (JsonList.cons v t) ≤ f := by
            have : jfuel (Json.arr (JsonList.cons v t)) = 1 + lfuel (JsonList.cons v t) := rfl
            omega
          have h1 : serialize (Json.arr (JsonList.cons v t)) ++ rest =
              '[' :: (serialize v ++ (serializeElems t ++ ']' :: rest)) := by
            simp [serialize]
          rw [h1]
          obtain ⟨c, t0, hct, hwc, hbc⟩ := serialize_head v
          have h2 : parseValue (f + 1) ('[' :: (serialize v ++ (serializeElems t ++ ']' :: rest))) =
              parseElems f (serialize v ++ (serializeElems t ++ ']' :: rest)) JsonList.nil := by
            rw [parseValue.eq_def]
            have hsw : skipWs ('[' :: (serialize v ++ (serializeElems t ++ ']' :: rest))) =
                '[' :: (serialize v ++ (serializeElems t ++ ']' :: rest)) :=
              skipWs_cons _ (by decide)
            simp only [hsw]
            have hr : skipWs (serialize v ++ (serializeElems t ++ ']' :: rest)) =
                serialize v ++ (serializeElems t ++ ']' :: rest) := by
              rw [hct, List.cons_append]; exact skipWs_cons _ hwc
            simp only [hr]
            split
            · rename_i heq
              rw [hct, List.cons_append, List.cons.injEq] at heq
              exact absurd heq.1 hbc
            · rfl
          rw [h2]
          have := ihE v t JsonList.nil rest hfl hrest hw.1 hw.2
          rw [this]
          rfl
      | obj fs =>
        cases fs with
        | nil => rfl
        | cons k v t =>
          have hwfs : jsonFieldsWf (JsonFields.cons k v t) = true := hwf
          have hw : jsonWf v = true ∧ jsonFieldsWf t = true := by
            simp only [jsonFieldsWf, Bool.and_eq_true] at hwfs
            exact ⟨hwfs.1.2, hwfs.2⟩
          have hfm : mfuel (JsonFields.cons k v t) ≤ f := by
            have : jfuel (Json.obj (JsonFields.cons k v t)) =
                1 + mfuel (JsonFields.cons k v t) := rfl
            omega
          have h1 : serialize (Json.obj (JsonFields.cons k v t)) ++ rest =
              '\x7b' :: ('\"' ::
                (escStr k ++ '\"' :: ':' :: (serialize v ++ (serializeFields t ++ '\x7d' :: rest)))) := by
            simp [serialize]
          rw [h1]
          have h2 : parseValue (f + 1)
              ('\x7b' :: ('\"' ::
                (escStr k ++ '\"' :: ':' :: (serialize v ++ (serializeFields t ++ '\x7d' :: rest))))) =
              parseMembers f
                ('\"' :: (escStr k ++ '\"' :: ':' :: (serialize v ++ (serializeFields t ++ '\x7d' :: rest))))
                JsonFields.nil := rfl
          rw [h2]
          have := ihM k v t JsonFields.nil rest hfm hrest hw.1 hw.2
          rw [this, insertAll_nil_of_wf _ hwfs]
    · -- parseElems
      intro v t acc rest hf hrest hwv hwt
      have hfv : jfuel v ≤ f := by
        have : lfuel (JsonList.cons v t) = 1 + jfuel v + lfuel t := rfl
        omega
      have h1 : parseElems (f + 1) (serialize v ++ (serializeElems t ++ ']' :: rest)) acc =
          (parseValue f (serialize v ++ (serializeElems t ++ ']' :: rest))).bind fun pv =>
            match skipWs pv.2 with
            | ',' :: r2 => parseElems f r2 (acc.append (JsonList.cons pv.1 JsonList.nil))
            | ']' :: r2 =>
              some (Json.arr (acc.append (JsonList.cons pv.1 JsonList.nil)), r2)
            | _ => none := rfl
      rw [h1, ihV v _ hfv (goodRest_elems t rest) hwv]
      cases t with
      | nil => rfl
      | cons v2 t2 =>
        have hw2 : jsonWf v2 = true ∧ jsonListWf t2 = true := by
          simpa [jsonListWf] using hwt
        have hfl2 : lfuel (JsonList.cons v2 t2) ≤ f := by
          have : lfuel (JsonList.cons v (JsonList.cons v2 t2)) =
              1 + jfuel v + lfuel (JsonList.cons v2 t2) := rfl
          omega
        have h2 : serializeElems (JsonList.cons v2 t2) ++ ']' :: rest =
            ',' :: (serialize v2 ++ (serializeElems t2 ++ ']' :: rest)) := by
          simp [serializeElems]
        rw [Option.some_bind]
        rw [show (skipWs (serializeElems (JsonList.cons v2 t2) ++ ']' :: rest)) =
            ',' :: (serialize v2 ++ (serializeElems t2 ++ ']' :: rest)) by
          rw [h2]; exact skipWs_cons _ (by decide)]
        have := ihE v2 t2 (acc.append (JsonList.cons v JsonList.nil)) rest hfl2 hrest hw2.1 hw2.2
        simp only [this, JsonList.append_snoc]
    · -- parseMembers
      intro k v t acc rest hf hrest hwv hwt
      have hfv : jfuel v ≤ f := by
        have : mfuel (JsonFields.cons k v t) = 1 + jfuel v + mfuel t := rfl
        omega
      have h1 : parseMembers (f + 1)
          ('\"' :: (escStr k ++ '\"' :: ':' :: (serialize v ++ (serializeFields t ++ '\x7d' :: rest)))) acc =
          (parseStrBody (escStr k ++ '\"' :: ':' :: (serialize v ++ (serializeFields t ++ '\x7d' :: rest)))).bind
            fun pk =>
              match skipWs pk.2 with
              | ':' :: r2 =>
                (parseValue f r2).bind fun pv =>
                  match skipWs pv.2 with
                  | ',' :: r3 => parseMembers f (skipWs r3) (objInsert acc pk.1 pv.1)
                  | '\x7d' :: r3 => some (Json.obj (objInsert acc pk.1 pv.1), r3)
                  | _ => none
              | _ => none := rfl
      rw [h1, parseStrBody_escStr]
      simp only [Option.some_bind,
        show skipWs (':' :: (serialize v ++ (serializeFields t ++ '\x7d' :: rest))) =
            ':' :: (serialize v ++ (serializeFields t ++ '\x7d' :: rest)) from
          skipWs_cons _ (by decide)]
      simp only [ihV v _ hfv (goodRest_fields t rest) hwv, Option.some_bind]
      cases t with
      | nil => rfl
      | cons k2 v2 t2 =>
        have hw2 : jsonWf v2 = true ∧ jsonFieldsWf t2 = true := by
          simp only [jsonFieldsWf, Bool.and_eq_true] at hwt
          exact ⟨hwt.1.2, hwt.2⟩
        have hfm2 : mfuel (JsonFields.cons k2 v2 t2) ≤ f := by
          have : mfuel (JsonFields.cons k v (JsonFields.cons k2 v2 t2)) =
              1 + jfuel v + mfuel (JsonFields.cons k2 v2 t2) := rfl
          omega
        rw [show skipWs (serializeFields (JsonFields.cons k2 v2 t2) ++ '\x7d' :: rest) =
            ',' :: ('\"' :: (escStr k2 ++ '\"' :: ':' ::
              (serialize v2 ++ (serializeFields t2 ++ '\x7d' :: rest)))) by
          simp only [serializeFields, List.cons_append, List.append_assoc]
          exact skipWs_cons _ (by decide)]
        simp only [show skipWs ('\"' :: (escStr k2 ++ '\"' :: ':' ::
            (serialize v2 ++ (serializeFields t2 ++ '\x7d' :: rest)))) =
            '\"' :: (escStr k2 ++ '\"' :: ':' ::
              (serialize v2 ++ (serializeFields t2 ++ '\x7d' :: rest))) from
          skipWs_cons _ (by decide)]
        simp only [ihM k2 v2 t2 (objInsert acc k v) rest hfm2 hrest hw2.1 hw2.2]
        rfl

theorem serialize_ne_nil (v : Json) : serialize v ≠ [] := by
  obtain ⟨c, t0, hct, -, -⟩ := serialize_head v
  simp [hct]

theorem serialize_length_pos (v : Json) : 1 ≤ (serialize v).length := by
  cases hs : serialize v with
  | nil => exact absurd hs (serialize_ne_nil v)
  | cons c t => simp

mutual

theorem jfuel_le : ∀ v : Json, jfuel v ≤ 2 * (serialize v).length
  | Json.null => by simp [jfuel, serialize]
  | Json.bool b => by cases b <;> simp [jfuel, serialize]
  | Json.num n => by
    have h := serialize_length_pos (Json.num n)
    simp only [jfuel]
    omega
  | Json.str s => by simp [jfuel, serialize]; omega
  | Json.arr JsonList.nil => by simp [jfuel, lfuel, serialize]
  | Json.arr (JsonList.cons v t) => by
    have h1 := jfuel_le v
    have h2 := lfuel_le t
    simp only [jfuel, lfuel, serialize, List.length_cons, List.length_append,
      List.length_singleton] at *
    omega
  | Json.obj JsonFields.nil => by simp [jfuel, mfuel, serialize]
  | Json.obj (JsonFields.cons k v t) => by
    have h1 := jfuel_le v
    have h2 := mfuel_le t
    simp only [jfuel, mfuel, serialize, List.length_cons, List.length_append,
      List.length_singleton] at *
    omega

theorem lfuel_le : ∀ xs : JsonList, lfuel xs ≤ 2 * (serializeElems xs).length + 1
  | JsonList.nil => by simp [lfuel, serializeElems]
  | JsonList.cons v t => by
    have h1 := jfuel_le v
    have h2 := lfuel_le t
    simp only [lfuel, serializeElems, List.length_cons, List.length_append] at *
    omega

theorem mfuel_le : ∀ fs : JsonFields, mfuel fs ≤ 2 * (serializeFields fs).length + 1
  | JsonFields.nil => by simp [mfuel, serializeFields]
  | JsonFields.cons k v t => by
    have h1 := jfuel_le v
    have h2 := mfuel_le t
    simp only [mfuel, serializeFields, List.length_cons, List.length_append] at *
    omega

end

/-- The `JSON.parse` model inverts serialization on well-formed values. -/
theorem jsonParse_serialize (v : Json) (hwf : jsonWf v = true) :
    jsonParse (serialize v) = some v := by
  have hb : jfuel v ≤ 2 * (serialize v).length + 2 :=
    le_trans (jfuel_le v) (by omega)
  have h := (rtP (2 * (serialize v).length + 2)).1 v [] hb trivial hwf
  rw [List.append_nil] at h
  unfold jsonParse
  rw [h]
  rfl

/-! # Lemmas: the brace-counting scanner -/



theorem scanStep_split (s : ScanState) (c : Char) :
    scanStep s c =
      { scanStep (stripC s) c with
        complete := s.complete ++ (scanStep (stripC s) c).complete } := by
  unfold scanStep stripC
  split_ifs <;> simp_all

theorem scanFold_split :
    ∀ (t : List Char) (s : ScanState),
      scanFold s t =
        { scanFold (stripC s) t with
          complete := s.complete ++ (scanFold (stripC s) t).complete } := by
  intro t
  induction t with
  | nil =>
    intro s
    simp [scanFold, stripC]
  | cons c cs ih =>
    intro s
    have h1 : scanFold s (c :: cs) = scanFold (scanStep s c) cs := rfl
    have h2 : scanFold (stripC s) (c :: cs) = scanFold (scanStep (stripC s) c) cs := rfl
    rw [h1, h2, scanStep_split s c, ih]
    have h3 : stripC { scanStep (stripC s) c with
        complete := s.complete ++ (scanStep (stripC s) c).complete } =
        stripC (scanStep (stripC s) c) := rfl
    rw [h3, ih (scanStep (stripC s) c)]
    simp [List.append_assoc]



theorem restartable_init : Restartable scanInit := rfl

theorem scanFold_append (s : ScanState) (a b : List Char) :
    scanFold s (a ++ b) = scanFold (scanFold s a) b := by
  simp [scanFold, List.foldl_append]

theorem scanFold_snoc (s : ScanState) (a : List Char) (c : Char) :
    scanFold s (a ++ [c]) = scanStep (scanFold s a) c := by
  simp [scanFold, List.foldl_append]

theorem restartable_step {s : ScanState} (h : Restartable s) (c : Char) :
    Restartable (scanStep s c) := by
  unfold Restartable at h ⊢
  unfold scanStep
  split_ifs with h1 h2 h3 h4 h5 h6 h7 h8
  · show scanFold scanInit (s.current ++ [c]) = _
    rw [scanFold_snoc, h]
    unfold scanStep
    simp only [stripC]
    rw [if_pos h1]
  · show scanFold scanInit (s.current ++ [c]) = _
    rw [scanFold_snoc, h]
    unfold scanStep
    simp only [stripC]
    rw [if_neg h1, if_pos h2]
  · show scanFold scanInit (s.current ++ [c]) = _
    rw [scanFold_snoc, h]
    unfold scanStep
    simp only [stripC]
    rw [if_neg h1, if_neg h2, if_pos h3]
  · show scanFold scanInit (s.current ++ [c]) = _
    rw [scanFold_snoc, h]
    unfold scanStep
    simp only [stripC]
    rw [if_neg h1, if_neg h2, if_neg h3, if_pos h4]
  · show scanFold scanInit (s.current ++ [c]) = _
    rw [scanFold_snoc, h]
    unfold scanStep
    simp only [stripC]
    rw [if_neg h1, if_neg h2, if_neg h3, if_neg h4, if_pos h5, if_pos h6]
  · show scanFold scanInit (s.current ++ [c]) = _
    rw [scanFold_snoc, h]
    unfold scanStep
    simp only [stripC]
    rw [if_neg h1, if_neg h2, if_neg h3, if_neg h4, if_pos h5, if_neg h6]
  · -- the completing brace: the new state is the initial one again
    show scanFold scanInit [] = _
    have hb : s.braceCount - 1 = 0 := h8.1
    have hstr : s.inString = false := by
      by_contra hx
      simp only [Bool.not_eq_false] at hx
      simp [hx] at h4
    have hesc : s.escaped = false := by
      by_contra hx
      simp only [Bool.not_eq_false] at hx
      simp [hx] at h1
    show scanInit = _
    simp [scanInit, stripC, hstr, hesc, hb]
  · show scanFold scanInit (s.current ++ [c]) = _
    rw [scanFold_snoc, h]
    unfold scanStep
    simp only [stripC]
    rw [if_neg h1, if_neg h2, if_neg h3, if_neg h4, if_neg h5, if_pos h7, if_neg h8]
  · show scanFold scanInit (s.current ++ [c]) = _
    rw [scanFold_snoc, h]
    unfold scanStep
    simp only [stripC]
    rw [if_neg h1, if_neg h2, if_neg h3, if_neg h4, if_neg h5, if_neg h7]

theorem restartable_fold :
    ∀ (t : List Char) (s : ScanState), Restartable s → Restartable (scanFold s t) := by
  intro t
  induction t with
  | nil => intro s h; exact h
  | cons c cs ih =>
    intro s h
    exact ih (scanStep s c) (restartable_step h c)

theorem restartable_scan (t : List Char) : Restartable (scanFold scanInit t) :=
  restartable_fold t scanInit restartable_init

/-- `current` is always a suffix of the text scanned so far. -/
theorem scan_current_suffix :
    ∀ (t : List Char) (s : ScanState),
      List.IsSuffix (scanFold s t).current (s.current ++ t) := by
  intro t
  induction t with
  | nil =>
    intro s
    simp [scanFold]
  | cons c cs ih =>
    intro s
    have h1 : scanFold s (c :: cs) = scanFold (scanStep s c) cs := rfl
    rw [h1]
    have hih := ih (scanStep s c)
    have hcur : (scanStep s c).current = s.current ++ [c] ∨ (scanStep s c).current = [] := by
      unfold scanStep
      split_ifs <;> simp
    have hshape : s.current ++ c :: cs = (s.current ++ [c]) ++ cs := by simp
    rw [hshape]
    rcases hcur with hc1 | hc1
    · rw [hc1] at hih
      exact hih
    · rw [hc1, List.nil_append] at hih
      exact hih.trans (List.suffix_append _ cs)

theorem extract_append (b c : List Char) :
    (extractCompleteJsonObjects (b ++ c)).complete =
      (extractCompleteJsonObjects b).complete ++
        (extractCompleteJsonObjects ((extractCompleteJsonObjects b).incomplete ++ c)).complete ∧
    (extractCompleteJsonObjects (b ++ c)).incomplete =
      (extractCompleteJsonObjects ((extractCompleteJsonObjects b).incomplete ++ c)).incomplete := by
  have hres : scanFold scanInit (scanFold scanInit b).current =
      stripC (scanFold scanInit b) := restartable_scan b
  have h1 : scanFold scanInit (b ++ c) = scanFold (scanFold scanInit b) c :=
    scanFold_append scanInit b c
  have h2 : scanFold scanInit ((scanFold scanInit b).current ++ c) =
      scanFold (stripC (scanFold scanInit b)) c := by
    rw [scanFold_append, hres]
  have h3 := scanFold_split c (scanFold scanInit b)
  constructor
  · show (scanFold scanInit (b ++ c)).complete = _
    rw [h1, h3]
    show (scanFold scanInit b).complete ++ _ = _
    rw [← h2]
    rfl
  · show (scanFold scanInit (b ++ c)).current = _
    rw [h1, h3]
    show (scanFold (stripC (scanFold scanInit b)) c).current = _
    rw [← h2]
    rfl

/-- Rescanning the leftover `incomplete` text alone completes nothing. -/
theorem extract_incomplete_no_complete (b : List Char) :
    (extractCompleteJsonObjects ((extractCompleteJsonObjects b).incomplete)).complete = [] := by
  have hres := restartable_scan b
  show (scanFold scanInit (scanFold scanInit b).current).complete = []
  rw [hres]
  rfl

/-! # Lemmas: scanning serialized values -/



theorem inertChar_spec {c : Char} (h : inertChar c = true) :
    c ≠ '\\' ∧ c ≠ '\"' ∧ c ≠ '\x7b' ∧ c ≠ '\x7d' := by
  simp only [inertChar, Bool.not_eq_true', Bool.or_eq_false_iff,
    decide_eq_false_iff_not] at h
  exact ⟨h.1.1.1, h.1.1.2, h.1.2, h.2⟩

theorem digit_inert {c : Char} (h : isDigitChar c = true) : inertChar c = true := by
  simp only [inertChar, Bool.not_eq_true', Bool.or_eq_false_iff, decide_eq_false_iff_not]
  exact ⟨⟨⟨digit_ne h (by decide), digit_ne h (by decide)⟩,
    digit_ne h (by decide)⟩, digit_ne h (by decide)⟩

theorem scanStep_inert {s : ScanState} {c : Char} (hc : inertChar c = true)
    (hesc : s.escaped = false) :
    scanStep s c = { s with current := s.current ++ [c] } := by
  obtain ⟨hbs, hq, hob, hcb⟩ := inertChar_spec hc
  unfold scanStep
  rw [if_neg (by simp [hesc]), if_neg hbs, if_neg hq]
  by_cases hins : s.inString = true
  · rw [if_pos hins]
  · rw [if_neg hins, if_neg hob, if_neg hcb]

theorem scan_inert_run :
    ∀ (t : List Char) (s : ScanState), (∀ c ∈ t, inertChar c = true) →
      s.escaped = false → scanFold s t = { s with current := s.current ++ t } := by
  intro t
  induction t with
  | nil => intro s _ _; simp [scanFold]
  | cons c cs ih =>
    intro s ht hesc
    have h1 : scanFold s (c :: cs) = scanFold (scanStep s c) cs := rfl
    rw [h1, scanStep_inert (ht c (by simp)) hesc]
    rw [ih { s with current := s.current ++ [c] } (fun x hx => ht x (by simp [hx])) hesc]
    simp

theorem scan_escStr :
    ∀ (k : List Char) (s : ScanState), s.escaped = false → s.inString = true →
      scanFold s (escStr k) = { s with current := s.current ++ escStr k } := by
  intro k
  induction k with
  | nil => intro s _ _; simp [escStr, scanFold]
  | cons c t ih =>
    intro s hesc hins
    have hsplit : escStr (c :: t) = escChar c ++ escStr t := rfl
    rw [hsplit, scanFold_append]
    by_cases hq : c = '\"'
    · subst hq
      have h1 : scanFold s (escChar '\"') =
          { s with current := s.current ++ escChar '\"' } := by
        show scanFold s ['\\', '\"'] = _
        have hs1 : scanStep s '\\' =
            { s with current := s.current ++ ['\\'], escaped := true } := by
          unfold scanStep
          rw [if_neg (by simp [hesc]), if_pos rfl]
        have hs2 : scanStep { s with current := s.current ++ ['\\'], escaped := true } '\"' =
            { s with current := s.current ++ ['\\', '\"'], escaped := false } := by
          unfold scanStep
          rw [if_pos rfl]
          simp
        show scanStep (scanStep s '\\') '\"' = _
        rw [hs1, hs2]
        simp [escChar, hesc]
      rw [h1]
      rw [ih { s with current := s.current ++ escChar '\"' } hesc hins]
      simp
    · by_cases hb : c = '\\'
      · subst hb
        have h1 : scanFold s (escChar '\\') =
            { s with current := s.current ++ escChar '\\' } := by
          show scanFold s ['\\', '\\'] = _
          have hs1 : scanStep s '\\' =
              { s with current := s.current ++ ['\\'], escaped := true } := by
            unfold scanStep
            rw [if_neg (by simp [hesc]), if_pos rfl]
          have hs2 : scanStep { s with current := s.current ++ ['\\'], escaped := true } '\\' =
              { s with current := s.current ++ ['\\', '\\'], escaped := false } := by
            unfold scanStep
            rw [if_pos rfl]
            simp
          show scanStep (scanStep s '\\') '\\' = _
          rw [hs1, hs2]
          simp [escChar, hesc]
        rw [h1]
        rw [ih { s with current := s.current ++ escChar '\\' } hesc hins]
        simp
      · have hec : escChar c = [c] := by simp [escChar, hq, hb]
        have h1 : scanFold s (escChar c) = { s with current := s.current ++ escChar c } := by
          rw [hec]
          show scanStep s c = _
          unfold scanStep
          rw [if_neg (by simp [hesc]), if_neg hb, if_neg hq, if_pos hins]
        rw [h1]
        rw [ih { s with current := s.current ++ escChar c } hesc hins]
        simp

theorem scan_stringLit (k : List Char) (s : ScanState) (hesc : s.escaped = false)
    (hins : s.inString = false) :
    scanFold s ('\"' :: (escStr k ++ ['\"'])) =
      { s with current := s.current ++ ('\"' :: (escStr k ++ ['\"'])) } := by
  have h0 : scanFold s ('\"' :: (escStr k ++ ['\"'])) =
      scanFold (scanStep s '\"') (escStr k ++ ['\"']) := rfl
  have hs1 : scanStep s '\"' =
      { s with current := s.current ++ ['\"'], inString := true } := by
    unfold scanStep
    rw [if_neg (by simp [hesc]), if_neg (by decide), if_pos rfl]
    simp [hins]
  rw [h0, hs1, scanFold_append]
  rw [scan_escStr k { s with current := s.current ++ ['\"'], inString := true } hesc rfl]
  show scanStep _ '\"' = _
  unfold scanStep
  rw [if_neg (by simp [hesc]), if_neg (by decide), if_pos rfl]
  simp [hins]
theorem scanFold_single (s : ScanState) (c : Char) : scanFold s [c] = scanStep s c := rfl

theorem scanFold_cons (s : ScanState) (c : Char) (rest : List Char) :
    scanFold s (c :: rest) = scanFold (scanStep s c) rest := rfl

theorem scanStep_openBrace (s : ScanState) (hesc : s.escaped = false)
    (hins : s.inString = false) (hbc : s.braceCount ≠ 0) :
    scanStep s '\x7b' =
      { s with current := s.current ++ ['\x7b'], braceCount := s.braceCount + 1 } := by
  unfold scanStep
  rw [if_neg (by simp [hesc]), if_neg (by decide), if_neg (by decide),
    if_neg (by simp [hins]), if_pos rfl, if_neg hbc]

theorem scanStep_openBrace_zero (s : ScanState) (hesc : s.escaped = false)
    (hins : s.inString = false) (hbc : s.braceCount = 0) :
    scanStep s '\x7b' =
      { s with current := s.current ++ ['\x7b'], startIndex := (s.current.length : Int),
               braceCount := s.braceCount + 1 } := by
  unfold scanStep
  rw [if_neg (by simp [hesc]), if_neg (by decide), if_neg (by decide),
    if_neg (by simp [hins]), if_pos rfl, if_pos hbc]

theorem scanStep_closeBrace_inner (s : ScanState) (hesc : s.escaped = false)
    (hins : s.inString = false) (hbc : s.braceCount - 1 ≠ 0) :
    scanStep s '\x7d' =
      { s with current := s.current ++ ['\x7d'], braceCount := s.braceCount - 1 } := by
  unfold scanStep
  rw [if_neg (by simp [hesc]), if_neg (by decide), if_neg (by decide),
    if_neg (by simp [hins]), if_neg (by decide), if_pos rfl,
    if_neg (fun hx => hbc hx.1)]

theorem scanStep_closeBrace_complete (s : ScanState) (hesc : s.escaped = false)
    (hins : s.inString = false) (hbc : s.braceCount - 1 = 0) (hsi : s.startIndex ≠ -1) :
    scanStep s '\x7d' =
      { s with current := [], braceCount := s.braceCount - 1, startIndex := -1,
               complete := s.complete ++ [(s.current ++ ['\x7d']).drop s.startIndex.toNat] } := by
  unfold scanStep
  rw [if_neg (by simp [hesc]), if_neg (by decide), if_neg (by decide),
    if_neg (by simp [hins]), if_neg (by decide), if_pos rfl, if_pos ⟨hbc, hsi⟩]

theorem intChars_inert (n : Int) : ∀ c ∈ intChars n, inertChar c = true := by
  intro c hc
  by_cases hn : n < 0
  · simp only [intChars, hn, if_true, List.mem_cons] at hc
    rcases hc with hc | hc
    · subst hc; decide
    · exact digit_inert ((natDigits_spec (-n).toNat).2.1 c hc)
  · simp only [intChars, hn, if_false] at hc
    exact digit_inert ((natDigits_spec n.toNat).2.1 c hc)



theorem appendOnly_append {X Y : List Char} (hx : AppendOnly X) (hy : AppendOnly Y) :
    AppendOnly (X ++ Y) := by
  intro s hesc hins hbc
  rw [scanFold_append, hx s hesc hins hbc,
    hy { s with current := s.current ++ X } hesc hins hbc]
  simp

theorem appendOnly_run {t : List Char} (ht : ∀ c ∈ t, inertChar c = true) :
    AppendOnly t :=
  fun s hesc _ _ => scan_inert_run t s ht hesc

theorem appendOnly_string (k : List Char) :
    AppendOnly ('\"' :: (escStr k ++ ['\"'])) :=
  fun s hesc hins _ => scan_stringLit k s hesc hins

mutual

theorem scan_val_inner : ∀ v : Json, AppendOnly (serialize v)
  | Json.null => appendOnly_run (by decide)
  | Json.bool true => appendOnly_run (by decide)
  | Json.bool false => appendOnly_run (by decide)
  | Json.num n => appendOnly_run (intChars_inert n)
  | Json.str k => appendOnly_string k
  | Json.arr JsonList.nil => appendOnly_run (by decide)
  | Json.arr (JsonList.cons v t) => by
    have hshape : serialize (Json.arr (JsonList.cons v t)) =
        ['['] ++ (serialize v ++ (serializeElems t ++ [']'])) := by
      simp [serialize]
    rw [hshape]
    exact appendOnly_append (appendOnly_run (by decide))
      (appendOnly_append (scan_val_inner v)
        (appendOnly_append (scan_elems_inner t) (appendOnly_run (by decide))))
  | Json.obj JsonFields.nil => by
    intro s hesc hins hbc
    have h0 : scanFold s (serialize (Json.obj JsonFields.nil)) =
        scanStep (scanStep s '\x7b') '\x7d' := rfl
    rw [h0, scanStep_openBrace s hesc hins (by omega)]
    rw [scanStep_closeBrace_inner
      { s with current := s.current ++ ['\x7b'], braceCount := s.braceCount + 1 }
      hesc hins (by simp; omega)]
    simp [serialize]
  | Json.obj (JsonFields.cons k v t) => by
    intro s hesc hins hbc
    have hmid : AppendOnly (('\"' :: (escStr k ++ ['\"'])) ++
        ([':'] ++ (serialize v ++ serializeFields t))) :=
      appendOnly_append (appendOnly_string k)
        (appendOnly_append (appendOnly_run (by decide))
          (appendOnly_append (scan_val_inner v) (scan_fields_inner t)))
    have hshape : serialize (Json.obj (JsonFields.cons k v t)) =
        '\x7b' :: ((('\"' :: (escStr k ++ ['\"'])) ++
          ([':'] ++ (serialize v ++ serializeFields t))) ++ ['\x7d']) := by
      simp [serialize]
    rw [hshape, scanFold_cons, scanStep_openBrace s hesc hins (by omega), scanFold_append]
    rw [hmid { s with current := s.current ++ ['\x7b'], braceCount := s.braceCount + 1 } hesc hins (by simp; omega)]
    dsimp only
    rw [scanFold_single]
    rw [scanStep_closeBrace_inner { s with current := (s.current ++ ['\x7b']) ++ (('\"' :: (escStr k ++ ['\"'])) ++ ([':'] ++ (serialize v ++ serializeFields t))), braceCount := s.braceCount + 1 } hesc hins (by simp; omega)]
    simp

theorem scan_elems_inner : ∀ t : JsonList, AppendOnly (serializeElems t)
  | JsonList.nil => by
    intro s _ _ _
    simp [serializeElems, scanFold]
  | JsonList.cons v t => by
    have hshape : serializeElems (JsonList.cons v t) =
        [','] ++ (serialize v ++ serializeElems t) := by
      simp [serializeElems]
    rw [hshape]
    exact appendOnly_append (appendOnly_run (by decide))
      (appendOnly_append (scan_val_inner v) (scan_elems_inner t))

theorem scan_fields_inner : ∀ t : JsonFields, AppendOnly (serializeFields t)
  | JsonFields.nil => by
    intro s _ _ _
    simp [serializeFields, scanFold]
  | JsonFields.cons k v t => by
    have hshape : serializeFields (JsonFields.cons k v t) =
        [','] ++ (('\"' :: (escStr k ++ ['\"'])) ++
          ([':'] ++ (serialize v ++ serializeFields t))) := by
      simp [serializeFields]
    rw [hshape]
    exact appendOnly_append (appendOnly_run (by decide))
      (appendOnly_append (appendOnly_string k)
        (appendOnly_append (appendOnly_run (by decide))
          (appendOnly_append (scan_val_inner v) (scan_fields_inner t))))

end

/-- Scanning the serialization of one object from a pre-value state cuts
out exactly that serialization as one complete string and returns to the
pre-value state. -/
theorem scan_obj_top (fs : JsonFields) (s : ScanState) (hesc : s.escaped = false)
    (hins : s.inString = false) (hbc : s.braceCount = 0) :
    scanFold s (serialize (Json.obj fs)) =
      { s with current := [], braceCount := 0, startIndex := -1,
               complete := s.complete ++ [serialize (Json.obj fs)] } := by
  cases fs with
  | nil =>
    have h0 : scanFold s (serialize (Json.obj JsonFields.nil)) =
        scanStep (scanStep s '\x7b') '\x7d' := rfl
    rw [h0, scanStep_openBrace_zero s hesc hins hbc]
    rw [scanStep_closeBrace_complete { s with current := s.current ++ ['\x7b'], startIndex := (s.current.length : Int), braceCount := s.braceCount + 1 } hesc hins (by simp; omega) (by simp)]
    simp only [Int.toNat_ofNat, List.drop_left]
    simp [serialize, hbc]
  | cons k v t =>
    have hmid : AppendOnly (('\"' :: (escStr k ++ ['\"'])) ++
        ([':'] ++ (serialize v ++ serializeFields t))) :=
      appendOnly_append (appendOnly_string k)
        (appendOnly_append (appendOnly_run (by decide))
          (appendOnly_append (scan_val_inner v) (scan_fields_inner t)))
    have hshape : serialize (Json.obj (JsonFields.cons k v t)) =
        '\x7b' :: ((('\"' :: (escStr k ++ ['\"'])) ++
          ([':'] ++ (serialize v ++ serializeFields t))) ++ ['\x7d']) := by
      simp [serialize]
    rw [hshape, scanFold_cons, scanStep_openBrace_zero s hesc hins hbc, scanFold_append]
    rw [hmid { s with current := s.current ++ ['\x7b'], startIndex := (s.current.length : Int), braceCount := s.braceCount + 1 } hesc hins (by simp; omega)]
    dsimp only
    rw [scanFold_single]
    rw [scanStep_closeBrace_complete { s with current := (s.current ++ ['\x7b']) ++ (('\"' :: (escStr k ++ ['\"'])) ++ ([':'] ++ (serialize v ++ serializeFields t))), startIndex := (s.current.length : Int), braceCount := s.braceCount + 1 } hesc hins (by simp; omega) (by simp)]
    dsimp only
    simp only [Int.toNat_ofNat]
    rw [show (((s.current ++ ['\x7b']) ++ (('\"' :: (escStr k ++ ['\"'])) ++
        ([':'] ++ (serialize v ++ serializeFields t)))) ++ ['\x7d']) =
        s.current ++ ('\x7b' :: ((('\"' :: (escStr k ++ ['\"'])) ++
          ([':'] ++ (serialize v ++ serializeFields t))) ++ ['\x7d'])) by
      simp]
    rw [List.drop_left]
    simp [hbc, hshape]


theorem cleanState_nil : cleanState [] = scanInit := rfl

/-- Scanning the concatenated serializations of top-level objects cuts
out exactly those serializations, leaving a clean state. -/
theorem scan_serializeAll :
    ∀ os : List Json, (∀ o ∈ os, o.isObj = true) →
      scanFold scanInit (serializeAll os) = cleanState (os.map serialize) := by
  intro os
  induction os with
  | nil =>
    intro _
    rfl
  | cons o os ih =>
    intro hobj
    obtain ⟨fs, rfl⟩ : ∃ fs, o = Json.obj fs := by
      have := hobj o (by simp)
      cases o <;> simp [Json.isObj] at this ⊢
    have hsh : serializeAll (Json.obj fs :: os) =
        serialize (Json.obj fs) ++ serializeAll os := by
      simp [serializeAll]
    rw [hsh, scanFold_append]
    rw [scan_obj_top fs scanInit rfl rfl rfl]
    have h1 : ({ scanInit with current := [], braceCount := 0, startIndex := -1, complete := scanInit.complete ++ [serialize (Json.obj fs)] } : ScanState) = cleanState [serialize (Json.obj fs)] := rfl
    rw [h1, scanFold_split]
    have h2 : stripC (cleanState [serialize (Json.obj fs)]) = scanInit := rfl
    rw [h2, ih (fun x hx => hobj x (by simp [hx]))]
    show ({ cleanState (os.map serialize) with complete := [serialize (Json.obj fs)] ++ (cleanState (os.map serialize)).complete } : ScanState) = _
    simp [cleanState]

theorem extract_serializeAll (os : List Json) (hobj : ∀ o ∈ os, o.isObj = true) :
    extractCompleteJsonObjects (serializeAll os) =
      { complete := os.map serialize, incomplete := [] } := by
  show ({ complete := (scanFold scanInit (serializeAll os)).complete,
          incomplete := (scanFold scanInit (serializeAll os)).current } : ExtractResult) = _
  rw [scan_serializeAll os hobj]
  rfl

/-! # Lemmas: the buffer-rescan assembler -/



theorem sjInit_inv : SJInv sjInit := ⟨by simp [sjInit], rfl⟩

theorem extract_incomplete_suffix (b : List Char) :
    List.IsSuffix (extractCompleteJsonObjects b).incomplete b := by
  have h := scan_current_suffix b scanInit
  simpa [scanInit] using h

theorem suffix_eq_drop {l s : List Char} (h : List.IsSuffix s l) :
    l.drop (l.length - s.length) = s := by
  obtain ⟨t, rfl⟩ := h
  simp [List.drop_left]

theorem completesOf_append (a b : List SJEvent) :
    completesOf (a ++ b) = completesOf a ++ completesOf b :=
  List.filterMap_append a b _

theorem chunksOf_append (a b : List SJEvent) :
    chunksOf (a ++ b) = chunksOf a ++ chunksOf b :=
  List.filterMap_append a b _

theorem completesOf_chunkFilter :
    ∀ ps : List Json,
      completesOf (ps.filterMap fun p =>
        if jsTruthy p && decide (0 < jsKeysLen p) then some (SJEvent.chunk p) else none) = [] := by
  intro ps
  induction ps with
  | nil => rfl
  | cons p t ih =>
    by_cases hp : (jsTruthy p && decide (0 < jsKeysLen p)) = true
    · rw [List.filterMap_cons]
      simp only [hp, if_pos]
      show completesOf (SJEvent.chunk p :: _) = []
      unfold completesOf
      rw [List.filterMap_cons]
      exact ih
    · rw [List.filterMap_cons]
      simp only [hp, if_false]
      exact ih

theorem completesOf_chunkBlock (hc : Bool) (b l : List Char) :
    completesOf (chunkBlock hc b l).1 = [] := by
  unfold chunkBlock
  split_ifs with h1 h2
  · exact completesOf_chunkFilter _
  · rfl
  · rfl

theorem completesOf_parseEvents (ss : List (List Char)) :
    completesOf (ss.map fun jsonStr =>
      match jsonParse jsonStr with
      | some v => SJEvent.complete v
      | none => SJEvent.consoleError) = ss.filterMap jsonParse := by
  induction ss with
  | nil => rfl
  | cons s t ih =>
    rw [List.map_cons, List.filterMap_cons]
    cases hp : jsonParse s with
    | some v =>
      simp only [hp]
      show completesOf (SJEvent.complete v :: _) = _
      unfold completesOf
      rw [List.filterMap_cons]
      show v :: _ = v :: _
      rw [← ih]
      rfl
    | none =>
      simp only [hp]
      show completesOf (SJEvent.consoleError :: _) = _
      unfold completesOf
      rw [List.filterMap_cons]
      exact ih

theorem sjWrite_spec (hc : Bool) (st : SJState) (c : List Char) (h : SJInv st) :
    (sjWrite hc st c).1.buffer = st.buffer ++ c ∧
    SJInv (sjWrite hc st c).1 ∧
    (((extractCompleteJsonObjects st.buffer).complete).filterMap jsonParse ++
        ((extractCompleteJsonObjects
          ((extractCompleteJsonObjects st.buffer).incomplete ++ c)).complete).filterMap jsonParse =
      ((extractCompleteJsonObjects (st.buffer ++ c)).complete).filterMap jsonParse) ∧
    completesOf (sjWrite hc st c).2 =
      ((extractCompleteJsonObjects
        ((extractCompleteJsonObjects st.buffer).incomplete ++ c)).complete).filterMap jsonParse := by
  obtain ⟨hle, hdrop⟩ := h
  have hitp : (st.buffer ++ c).drop st.processedLength =
      (extractCompleteJsonObjects st.buffer).incomplete ++ c := by
    rw [List.drop_append_of_le_length hle, hdrop]
  have hext := extract_append st.buffer c
  refine ⟨rfl, ⟨?_, ?_⟩, ?_, ?_⟩
  · show st.processedLength +
        (((st.buffer ++ c).drop st.processedLength).length -
          (extractCompleteJsonObjects ((st.buffer ++ c).drop st.processedLength)).incomplete.length) ≤
        (st.buffer ++ c).length
    have h1 := List.length_drop st.processedLength (st.buffer ++ c)
    have h2 : (extractCompleteJsonObjects ((st.buffer ++ c).drop st.processedLength)).incomplete.length ≤
        ((st.buffer ++ c).drop st.processedLength).length :=
      (extract_incomplete_suffix _).length_le
    have h3 : st.processedLength ≤ (st.buffer ++ c).length := by
      simp only [List.length_append]
      omega
    omega
  · have h2 : (extractCompleteJsonObjects ((st.buffer ++ c).drop st.processedLength)).incomplete.length ≤
        ((st.buffer ++ c).drop st.processedLength).length :=
      (extract_incomplete_suffix _).length_le
    have h4 : (st.buffer ++ c).drop
        (st.processedLength + (((st.buffer ++ c).drop st.processedLength).length -
          (extractCompleteJsonObjects ((st.buffer ++ c).drop st.processedLength)).incomplete.length)) =
        ((st.buffer ++ c).drop st.processedLength).drop
          (((st.buffer ++ c).drop st.processedLength).length -
            (extractCompleteJsonObjects ((st.buffer ++ c).drop st.processedLength)).incomplete.length) := by
      rw [List.drop_drop]
    show (st.buffer ++ c).drop
        (st.processedLength + (((st.buffer ++ c).drop st.processedLength).length -
          (extractCompleteJsonObjects ((st.buffer ++ c).drop st.processedLength)).incomplete.length)) =
      (extractCompleteJsonObjects (st.buffer ++ c)).incomplete
    rw [hext.2, h4, suffix_eq_drop (extract_incomplete_suffix _), hitp]
  · rw [← List.filterMap_append, ← hext.1]
  · show completesOf ((chunkBlock hc (st.buffer ++ c) st.lastLogged).1 ++
        (parseJsonObjects (st.buffer ++ c) st.processedLength).1) = _
    rw [completesOf_append, completesOf_chunkBlock, List.nil_append]
    show completesOf (((extractCompleteJsonObjects ((st.buffer ++ c).drop st.processedLength)).complete).map _) = _
    rw [completesOf_parseEvents, hitp]

theorem sjRun_snoc (hc : Bool) (cs : List (List Char)) (c : List Char) :
    sjRun hc (cs ++ [c]) =
      ((sjWrite hc (sjRun hc cs).1 c).1, (sjRun hc cs).2 ++ (sjWrite hc (sjRun hc cs).1 c).2) := by
  simp [sjRun, List.foldl_append]

theorem sjRun_spec (hc : Bool) : ∀ cs : List (List Char),
    (sjRun hc cs).1.buffer = cs.flatten ∧ SJInv (sjRun hc cs).1 ∧
    completesOf (sjRun hc cs).2 =
      ((extractCompleteJsonObjects cs.flatten).complete).filterMap jsonParse := by
  intro cs
  induction cs using List.reverseRecOn with
  | nil => exact ⟨rfl, sjInit_inv, rfl⟩
  | append_singleton cs c ih =>
    obtain ⟨hbuf, hinv, hcomp⟩ := ih
    obtain ⟨hwb, hwinv, hweq, hwev⟩ := sjWrite_spec hc (sjRun hc cs).1 c hinv
    rw [sjRun_snoc]
    refine ⟨?_, hwinv, ?_⟩
    · show (sjWrite hc (sjRun hc cs).1 c).1.buffer = _
      rw [hwb, hbuf]
      simp
    · show completesOf ((sjRun hc cs).2 ++ (sjWrite hc (sjRun hc cs).1 c).2) = _
      rw [hbuf] at hwev hweq
      rw [completesOf_append, hcomp, hwev, hweq]
      have hfl : (cs ++ [c]).flatten = cs.flatten ++ c := by simp
      rw [hfl]

theorem sjClose_nil (st : SJState) (h : SJInv st) : sjClose st = [] := by
  unfold sjClose
  split_ifs with h1
  · show (((extractCompleteJsonObjects (st.buffer.drop st.processedLength)).complete).map _) = []
    rw [h.2, extract_incomplete_no_complete]
    rfl
  · rfl

theorem sjSession_completes (hc : Bool) (cs : List (List Char)) :
    completesOf (sjSession hc cs) =
      ((extractCompleteJsonObjects cs.flatten).complete).filterMap jsonParse := by
  unfold sjSession
  obtain ⟨hbuf, hinv, hcomp⟩ := sjRun_spec hc cs
  rw [sjClose_nil _ hinv, List.append_nil, hcomp]

theorem filterMap_parse_serialize :
    ∀ os : List Json, (∀ o ∈ os, jsonWf o = true) →
      (os.map serialize).filterMap jsonParse = os := by
  intro os
  induction os with
  | nil => intro _; rfl
  | cons o t ih =>
    intro h
    rw [List.map_cons, List.filterMap_cons, jsonParse_serialize o (h o (by simp))]
    rw [ih (fun x hx => h x (by simp [hx]))]

theorem extract_serialize_obj (fs : JsonFields) :
    extractCompleteJsonObjects (serialize (Json.obj fs)) =
      { complete := [serialize (Json.obj fs)], incomplete := [] } := by
  show ({ complete := (scanFold scanInit (serialize (Json.obj fs))).complete,
          incomplete := (scanFold scanInit (serialize (Json.obj fs))).current } : ExtractResult) = _
  rw [scan_obj_top fs scanInit rfl rfl rfl]
  rfl

theorem extract_scalar (v : Json) (h : v.isScalar = true) :
    (extractCompleteJsonObjects (serialize v)).complete = [] := by
  cases v with
  | null =>
    show (scanFold scanInit (serialize Json.null)).complete = []
    rw [scan_inert_run _ scanInit (by decide) rfl]
    rfl
  | bool b =>
    show (scanFold scanInit (serialize (Json.bool b))).complete = []
    cases b <;> rw [scan_inert_run _ scanInit (by decide) rfl] <;> rfl
  | num n =>
    show (scanFold scanInit (intChars n)).complete = []
    rw [scan_inert_run _ scanInit (intChars_inert n) rfl]
    rfl
  | str s =>
    show (scanFold scanInit ('\"' :: (escStr s ++ ['\"']))).complete = []
    rw [scan_stringLit s scanInit rfl rfl]
    rfl
  | arr xs => simp [Json.isScalar] at h
  | obj fs => simp [Json.isScalar] at h

theorem chunksOf_parseEvents (ss : List (List Char)) :
    chunksOf (ss.map fun jsonStr =>
      match jsonParse jsonStr with
      | some v => SJEvent.complete v
      | none => SJEvent.consoleError) = [] := by
  induction ss with
  | nil => rfl
  | cons s t ih =>
    rw [List.map_cons]
    cases hp : jsonParse s with
    | some v =>
      simp only [hp]
      show chunksOf (SJEvent.complete v :: _) = []
      unfold chunksOf
      rw [List.filterMap_cons]
      exact ih
    | none =>
      simp only [hp]
      show chunksOf (SJEvent.consoleError :: _) = []
      unfold chunksOf
      rw [List.filterMap_cons]
      exact ih

theorem sjWrite_chunk_mem (hc : Bool) (st : SJState) (c : List Char) (v : Json)
    (h : SJEvent.chunk v ∈ (sjWrite hc st c).2) :
    v ∈ extractPartialObjects (st.buffer ++ c) ∧
      jsTruthy v = true ∧ 0 < jsKeysLen v := by
  have h2 : SJEvent.chunk v ∈ (chunkBlock hc (st.buffer ++ c) st.lastLogged).1 ++
      (parseJsonObjects (st.buffer ++ c) st.processedLength).1 := h
  rw [List.mem_append] at h2
  rcases h2 with h2 | h2
  · unfold chunkBlock at h2
    split_ifs at h2 with h3 h4
    · rw [List.mem_filterMap] at h2
      obtain ⟨p, hp, hfp⟩ := h2
      by_cases hg : (jsTruthy p && decide (0 < jsKeysLen p)) = true
      · rw [if_pos hg] at hfp
        obtain rfl : p = v := by
          have := Option.some.inj hfp
          exact SJEvent.chunk.inj this
        simp only [Bool.and_eq_true, decide_eq_true_eq] at hg
        exact ⟨hp, hg.1, hg.2⟩
      · rw [if_neg hg] at hfp
        exact absurd hfp (by simp)
    · simp at h2
    · simp at h2
  · exfalso
    have h3 : SJEvent.chunk v ∈ (((extractCompleteJsonObjects
        ((st.buffer ++ c).drop st.processedLength)).complete).map fun jsonStr =>
          match jsonParse jsonStr with
          | some w => SJEvent.complete w
          | none => SJEvent.consoleError) := h2
    rw [List.mem_map] at h3
    obtain ⟨s2, -, hs2⟩ := h3
    cases hp : jsonParse s2 <;> rw [hp] at hs2 <;> simp at hs2

theorem sjWrite_dedup (st : SJState) (c : List Char)
    (h : stringifyPartials (extractPartialObjects (st.buffer ++ c)) = st.lastLogged) :
    chunksOf (sjWrite true st c).2 = [] := by
  show chunksOf ((chunkBlock true (st.buffer ++ c) st.lastLogged).1 ++
      (parseJsonObjects (st.buffer ++ c) st.processedLength).1) = []
  rw [chunksOf_append]
  have h1 : (chunkBlock true (st.buffer ++ c) st.lastLogged).1 = [] := by
    unfold chunkBlock
    rw [if_pos rfl, if_neg (by simp [h])]
  rw [h1]
  show chunksOf (((extractCompleteJsonObjects
      ((st.buffer ++ c).drop st.processedLength)).complete).map _) = []
  rw [chunksOf_parseEvents]

/-! ## Brace-free input is silently consumed -/

theorem scanStep_braceFree {s : ScanState} {c : Char} (hc : c ≠ '\x7b' ∧ c ≠ '\x7d') :
    (scanStep s c).complete = s.complete ∧ (scanStep s c).startIndex = s.startIndex := by
  unfold scanStep
  split_ifs with h1 h2 h3 h4 h5 h6 h7 h8 <;>
    first
      | exact ⟨rfl, rfl⟩
      | exact absurd h5 hc.1
      | exact absurd h7 hc.2

theorem scanFold_braceFree :
    ∀ (t : List Char) (s : ScanState), braceFree t →
      (scanFold s t).complete = s.complete := by
  intro t
  induction t with
  | nil => intro s _; rfl
  | cons c cs ih =>
    intro s ht
    rw [scanFold_cons]
    rw [ih (scanStep s c) (fun x hx => ht x (by simp [hx]))]
    exact (scanStep_braceFree (ht c (by simp))).1

theorem pscanStep_braceFree {s : PScanState} {c : Char} (hc : c ≠ '\x7b' ∧ c ≠ '\x7d') :
    (pscanStep s c).partials = s.partials ∧ (pscanStep s c).braceCount = s.braceCount := by
  unfold pscanStep
  split_ifs with h1 h2 h3 h4 h5 h6 h7 <;>
    first
      | exact ⟨rfl, rfl⟩
      | exact absurd h5 hc.1
      | exact absurd h6 hc.2

theorem pscanFold_braceFree :
    ∀ (t : List Char) (s : PScanState), braceFree t →
      (t.foldl pscanStep s).partials = s.partials ∧
        (t.foldl pscanStep s).braceCount = s.braceCount := by
  intro t
  induction t with
  | nil => intro s _; exact ⟨rfl, rfl⟩
  | cons c cs ih =>
    intro s ht
    have h1 : (c :: cs).foldl pscanStep s = cs.foldl pscanStep (pscanStep s c) := rfl
    rw [h1]
    have h2 := pscanStep_braceFree (s := s) (ht c (by simp))
    have h3 := ih (pscanStep s c) (fun x hx => ht x (by simp [hx]))
    exact ⟨h3.1.trans h2.1, h3.2.trans h2.2⟩

theorem extractPartialObjects_braceFree (b : List Char) (hb : braceFree b) :
    extractPartialObjects b = [] := by
  unfold extractPartialObjects
  have h1 := pscanFold_braceFree b pscanInit hb
  rw [if_neg]
  · exact h1.1
  · intro hx
    rw [Bool.and_eq_true] at hx
    have h2 : (b.foldl pscanStep pscanInit).braceCount = 0 := h1.2
    rw [h2] at hx
    simp at hx

theorem sjSession_braceFree (hc : Bool) (c : List Char) (hb : braceFree c) :
    sjSession hc [c] = [] := by
  unfold sjSession
  rw [sjClose_nil _ (sjRun_spec hc [c]).2.1, List.append_nil]
  show (chunkBlock hc (sjInit.buffer ++ c) sjInit.lastLogged).1 ++
      (parseJsonObjects (sjInit.buffer ++ c) sjInit.processedLength).1 = []
  have hbc : (sjInit.buffer ++ c) = c := rfl
  rw [hbc]
  have h1 : (chunkBlock hc c sjInit.lastLogged).1 = [] := by
    unfold chunkBlock
    split_ifs with h2 h3
    · rw [extractPartialObjects_braceFree c hb]
      rfl
    · rfl
    · rfl
  rw [h1, List.nil_append]
  show (((extractCompleteJsonObjects (c.drop sjInit.processedLength)).complete).map _) = []
  have h2 : c.drop sjInit.processedLength = c := rfl
  rw [h2]
  have h3 : (extractCompleteJsonObjects c).complete = [] :=
    scanFold_braceFree c scanInit hb
  rw [h3]
  rfl

/-! ## The full event list of a single-fragment session without `onChunk` -/

theorem sjSession_single (c : List Char) :
    sjSession false [c] =
      ((extractCompleteJsonObjects c).complete).map fun jsonStr =>
        match jsonParse jsonStr with
        | some v => SJEvent.complete v
        | none => SJEvent.consoleError := by
  unfold sjSession
  rw [sjClose_nil _ (sjRun_spec false [c]).2.1, List.append_nil]
  rfl

/-! ## Chunks delivered by a single `write` -/

theorem chunksOf_chunkFilter :
    ∀ ps : List Json,
      chunksOf (ps.filterMap fun p =>
        if jsTruthy p && decide (0 < jsKeysLen p) then some (SJEvent.chunk p) else none) =
        ps.filter fun p => jsTruthy p && decide (0 < jsKeysLen p) := by
  intro ps
  induction ps with
  | nil => rfl
  | cons p t ih =>
    by_cases hp : (jsTruthy p && decide (0 < jsKeysLen p)) = true
    · rw [List.filterMap_cons, if_pos hp]
      have h1 : chunksOf (SJEvent.chunk p :: (t.filterMap fun q =>
          if jsTruthy q && decide (0 < jsKeysLen q) then some (SJEvent.chunk q) else none)) =
          p :: chunksOf (t.filterMap fun q =>
            if jsTruthy q && decide (0 < jsKeysLen q) then some (SJEvent.chunk q) else none) := rfl
      rw [h1, ih, List.filter_cons]
      simp [hp]
    · rw [List.filterMap_cons, if_neg hp, List.filter_cons]
      simp only [hp, if_false, Bool.false_eq_true]
      exact ih

theorem sjWrite_rebroadcast (st : SJState) (c : List Char)
    (hne : stringifyPartials (extractPartialObjects (st.buffer ++ c)) ≠ st.lastLogged) :
    chunksOf (sjWrite true st c).2 =
      (extractPartialObjects (st.buffer ++ c)).filter
        fun p => jsTruthy p && decide (0 < jsKeysLen p) := by
  show chunksOf ((chunkBlock true (st.buffer ++ c) st.lastLogged).1 ++
      (parseJsonObjects (st.buffer ++ c) st.processedLength).1) = _
  rw [chunksOf_append]
  have h2 : chunksOf (parseJsonObjects (st.buffer ++ c) st.processedLength).1 = [] := by
    show chunksOf (((extractCompleteJsonObjects
        ((st.buffer ++ c).drop st.processedLength)).complete).map _) = []
    rw [chunksOf_parseEvents]
  rw [h2, List.append_nil]
  unfold chunkBlock
  rw [if_pos rfl, if_pos hne]
  exact chunksOf_chunkFilter _

/-! ## Every completed region starts at a top-level brace and ends at its
balancing close brace -/

theorem drop_append_le {α : Type} :
    ∀ (l : List α) (n : Nat) (t : List α), n ≤ l.length → (l ++ t).drop n = l.drop n ++ t := by
  intro l
  induction l with
  | nil =>
    intro n t h
    have hn : n = 0 := by simpa using h
    subst hn
    rfl
  | cons x xs ih =>
    intro n t h
    cases n with
    | zero => rfl
    | succ m =>
      show (xs ++ t).drop m = xs.drop m ++ t
      exact ih m t (by simpa using h)

theorem scanStep_ok (s : ScanState) (c : Char) (h : ScanOk s) : ScanOk (scanStep s c) := by
  obtain ⟨hsi, hcomp⟩ := h
  have hgrow : ∀ t : List Char,
      (s.startIndex = -1 ∨
        (0 ≤ s.startIndex ∧ s.startIndex < ((s.current ++ t).length : Int) ∧
          (s.current ++ t)[s.startIndex.toNat]? = some '\x7b')) := by
    intro t
    rcases hsi with hsi | ⟨h0, h1, h2⟩
    · exact Or.inl hsi
    · refine Or.inr ⟨h0, ?_, ?_⟩
      · rw [List.length_append]; push_cast; omega
      · rw [List.getElem?_append_left (by omega)]
        exact h2
  unfold scanStep
  split_ifs with h1 h2 h3 h4 h5 h6 h7 h8
  · exact ⟨hgrow [c], hcomp⟩
  · exact ⟨hgrow [c], hcomp⟩
  · exact ⟨hgrow [c], hcomp⟩
  · exact ⟨hgrow [c], hcomp⟩
  · -- `\x7b` seen at depth 0: startIndex is set to the position of this brace
    subst h5
    refine ⟨Or.inr ⟨by positivity, ?_, ?_⟩, hcomp⟩
    · show (s.current.length : Int) < ((s.current ++ ['\x7b']).length : Int)
      rw [List.length_append, List.length_singleton]
      push_cast
      omega
    · show (s.current ++ ['\x7b'])[(s.current.length : Int).toNat]? = some '\x7b'
      rw [Int.toNat_natCast]
      rw [List.getElem?_append_right (le_refl _)]
      simp
  · exact ⟨hgrow [c], hcomp⟩
  · -- completing `\x7d`: the cut region starts at the recorded `\x7b`
    subst h7
    rcases hsi with hsi | ⟨h0, hlt, hat⟩
    · exact absurd hsi h8.2
    refine ⟨Or.inl rfl, ?_⟩
    intro r hr
    rw [List.mem_append] at hr
    rcases hr with hr | hr
    · exact hcomp r hr
    rw [List.mem_singleton] at hr
    subst hr
    have hnlt : s.startIndex.toNat < s.current.length := by omega
    constructor
    · have hn2 : s.startIndex.toNat < (s.current ++ ['\x7d']).length := by
        rw [List.length_append]; omega
      rw [List.drop_eq_getElem_cons hn2, List.head?_cons]
      have hv : (s.current ++ ['\x7d'])[s.startIndex.toNat]? = some '\x7b' := by
        rw [List.getElem?_append_left hnlt]
        exact hat
      rw [List.getElem?_eq_getElem hn2] at hv
      rw [Option.some.inj hv]
    · rw [drop_append_le _ _ _ (by omega), List.getLast?_concat]
  · exact ⟨hgrow [c], hcomp⟩
  · exact ⟨hgrow [c], hcomp⟩

theorem scanFold_ok : ∀ (t : List Char) (s : ScanState), ScanOk s → ScanOk (scanFold s t) := by
  intro t
  induction t with
  | nil => intro s h; exact h
  | cons c cs ih =>
    intro s h
    rw [scanFold_cons]
    exact ih (scanStep s c) (scanStep_ok s c h)

theorem scanInit_ok : ScanOk scanInit := ⟨Or.inl rfl, by intro r hr; simp [scanInit] at hr⟩

theorem extract_complete_braces (buf r : List Char)
    (h : r ∈ (extractCompleteJsonObjects buf).complete) :
    r.head? = some '\x7b' ∧ r.getLast? = some '\x7d' := by
  have hok := scanFold_ok buf scanInit scanInit_ok
  exact hok.2 r h

/-! # The claims -/

/-- C1: the original claim — every fragmentation of any sequence of
well-formed top-level JSON values yields exactly one `onComplete` per
value — fails for the buffer-rescan assembler: the well-formed top-level
value `7`, fed whole as a single fragment, produces zero `onComplete`
calls instead of one. -/
theorem C1_counterexample :
    jsonWf (Json.num 7) = true ∧
    completesOf (sjSession false [serialize (Json.num 7)]) = [] := by decide

/-- C1 (amended): for sequences of well-formed top-level JSON *objects*,
fragmentation invariance and order preservation hold in the buffer-rescan
assembler: any split of the concatenated serializations into fragments
produces exactly one `onComplete` per object, in source order, with the
exact corresponding value. -/
theorem C1_objects_fragmentation_order (hc : Bool) (os : List Json)
    (cs : List (List Char)) (hsplit : cs.flatten = serializeAll os)
    (hobj : ∀ o ∈ os, o.isObj = true) (hwf : ∀ o ∈ os, jsonWf o = true) :
    completesOf (sjSession hc cs) = os := by
  rw [sjSession_completes, hsplit, extract_serializeAll os hobj]
  exact filterMap_parse_serialize os hwf

/-- C1 witness: two objects split in the middle of a key. -/
theorem C1_witness :
    completesOf (sjSession true ["\x7b\"a".toList, "\":1\x7d\x7b\"b\":2\x7d".toList]) =
      [Json.obj (JsonFields.cons ['a'] (Json.num 1) JsonFields.nil),
       Json.obj (JsonFields.cons ['b'] (Json.num 2) JsonFields.nil)] :=
  C1_objects_fragmentation_order true _ _ (by decide) (by decide) (by decide)

/-- C2: the original claim fails: the malformed brace region
`\x7b"a":1,\x7d` is reported only through `console.error` — no
caller-visible event, callback or result — contradicting "never logged
only to the console".  The recovery half does hold. -/
theorem C2_counterexample :
    sjSession false ["\x7b\"a\":1,\x7d\x7b\"b\":2\x7d".toList] =
      [SJEvent.consoleError,
       SJEvent.complete (Json.obj (JsonFields.cons ['b'] (Json.num 2) JsonFields.nil))] := by
  decide

/-- C2 (amended): a malformed complete brace region is reported only via
`console.error`, and the well-formed object appended immediately after it
is still assembled and delivered via `onComplete`. -/
theorem C2_console_only_with_recovery (m : List Char) (fs : JsonFields)
    (hm : extractCompleteJsonObjects m = { complete := [m], incomplete := [] })
    (hbad : jsonParse m = none) (hwf : jsonFieldsWf fs = true) :
    sjSession false [m ++ serialize (Json.obj fs)] =
      [SJEvent.consoleError, SJEvent.complete (Json.obj fs)] := by
  rw [sjSession_single]
  have hext : (extractCompleteJsonObjects (m ++ serialize (Json.obj fs))).complete =
      [m, serialize (Json.obj fs)] := by
    have h1 := (extract_append m (serialize (Json.obj fs))).1
    rw [hm] at h1
    rw [h1]
    show [m] ++ (extractCompleteJsonObjects (serialize (Json.obj fs))).complete = _
    rw [extract_serialize_obj]
    rfl
  rw [hext]
  have hwfo : jsonWf (Json.obj fs) = true := by simpa [jsonWf] using hwf
  simp only [List.map_cons, List.map_nil, hbad, jsonParse_serialize (Json.obj fs) hwfo]

/-- C2 witness: a trailing-comma object followed by a good object. -/
theorem C2_witness :
    sjSession false ["\x7b\"a\":1,\x7d".toList ++
        serialize (Json.obj (JsonFields.cons ['b'] (Json.num 2) JsonFields.nil))] =
      [SJEvent.consoleError,
       SJEvent.complete (Json.obj (JsonFields.cons ['b'] (Json.num 2) JsonFields.nil))] :=
  C2_console_only_with_recovery _ _ (by decide) (by decide) (by decide)

/-- C3: the original claim fails: the bare top-level array `[1,2,3]` fed
whole produces zero `onComplete` calls from the buffer-rescan assembler —
and zero from the clarinet assembler as well — instead of one call
delivering the array. -/
theorem C3_counterexample :
    completesOf (sjSession false ["[1,2,3]".toList]) = [] ∧
    clarinetCompletes ("[1,2,3]".toList) = [] := by decide

/-- C3 (amended): every bare top-level scalar (null, boolean, number or
string) is silently ignored by the buffer-rescan assembler: zero
`onComplete` calls. -/
theorem C3_scalars_ignored (hc : Bool) (v : Json) (h : v.isScalar = true) :
    completesOf (sjSession hc [serialize v]) = [] := by
  rw [sjSession_completes]
  have hfl : ([serialize v] : List (List Char)).flatten = serialize v := by simp
  rw [hfl, extract_scalar v h]
  rfl

/-- C3 witness: the bare number `5`. -/
theorem C3_witness : completesOf (sjSession false [serialize (Json.num 5)]) = [] :=
  C3_scalars_ignored false (Json.num 5) rfl

/-- C4: the original claim fails: `close()` while the buffer holds the
open object `\x7b"a":1` reports nothing at all — no incomplete-stream
condition, no error, no `onComplete`; the open value is silently
discarded. -/
theorem C4_counterexample :
    sjSession false ["\x7b\"a\":1".toList] = [] := by decide

/-- C4 (amended): after any sequence of writes, `close()` emits no events
whatsoever: it never reports an incomplete stream and never delivers the
open value. -/
theorem C4_close_reports_nothing (hc : Bool) (cs : List (List Char)) :
    sjClose (sjRun hc cs).1 = [] :=
  sjClose_nil _ (sjRun_spec hc cs).2.1

/-- C5: the original claim's dedup half fails: appending a space inside an
open string literal does not change the shallow shape of the in-progress
value (the spec-defined shallow snapshot is the empty object both before
and after), yet the write produces an additional `onChunk` call, with a
different truncated value. -/
theorem C5_counterexample :
    specShallowSnapshot ("\x7b\"a\":\"x".toList) =
        specShallowSnapshot ("\x7b\"a\":\"x".toList ++ " ".toList) ∧
    chunksOf (sjSession true ["\x7b\"a\":\"x".toList, " ".toList]) =
      [Json.obj (JsonFields.cons ['a'] (Json.str ['x']) JsonFields.nil),
       Json.obj (JsonFields.cons ['a'] (Json.str ['x', ' ']) JsonFields.nil)] := by decide

/-- C5 (amended): dedup is by `JSON.stringify` of the list of extracted
partial objects, not by shallow shape: a write that leaves that string
unchanged produces zero `onChunk` calls; and every `onChunk` delivery is a
truthy value with at least one key — in particular never an empty
object. -/
theorem C5_dedup_by_stringify (st : SJState) (c : List Char) (v : Json) :
    (stringifyPartials (extractPartialObjects (st.buffer ++ c)) = st.lastLogged →
      chunksOf (sjWrite true st c).2 = []) ∧
    (SJEvent.chunk v ∈ (sjWrite true st c).2 →
      jsTruthy v = true ∧ 0 < jsKeysLen v) :=
  ⟨fun h => sjWrite_dedup st c h,
   fun h => ⟨(sjWrite_chunk_mem true st c v h).2.1, (sjWrite_chunk_mem true st c v h).2.2⟩⟩

/-- C5 witness: after `\x7b"a":1\x7d` completed, a space write changes the
dedup string not at all and yields zero chunks; and the chunk delivered
for the open object `\x7b"b":2` is truthy with one key. -/
theorem C5_witness :
    chunksOf (sjWrite true { buffer := "\x7b\"a\":1\x7d".toList, processedLength := 7, lastLogged := "[\x7b\"a\":1\x7d]".toList } " ".toList).2 = [] ∧
    (jsTruthy (Json.obj (JsonFields.cons ['b'] (Json.num 2) JsonFields.nil)) = true ∧
      0 < jsKeysLen (Json.obj (JsonFields.cons ['b'] (Json.num 2) JsonFields.nil))) :=
  ⟨(C5_dedup_by_stringify { buffer := "\x7b\"a\":1\x7d".toList, processedLength := 7, lastLogged := "[\x7b\"a\":1\x7d]".toList } " ".toList Json.null).1 (by decide),
   (C5_dedup_by_stringify { buffer := [], processedLength := 0, lastLogged := [] }
        ("\x7b\"b\":2".toList)
        (Json.obj (JsonFields.cons ['b'] (Json.num 2) JsonFields.nil))).2 (by decide)⟩

/-- C6: the original claim fails: streaming `\x7b"a":"Jo` then `hn"\x7d`
delivers a snapshot binding key `a` to the *truncated* string `Jo` — a
fabricated value, not a structural subset of the final value, where `a`
is `John`. -/
theorem C6_counterexample :
    sjSession true ["\x7b\"a\":\"Jo".toList, "hn\"\x7d".toList] =
      [SJEvent.chunk (Json.obj (JsonFields.cons ['a'] (Json.str "Jo".toList) JsonFields.nil)),
       SJEvent.chunk (Json.obj (JsonFields.cons ['a'] (Json.str "John".toList) JsonFields.nil)),
       SJEvent.complete
         (Json.obj (JsonFields.cons ['a'] (Json.str "John".toList) JsonFields.nil))] ∧
    structSubsetB
      (Json.obj (JsonFields.cons ['a'] (Json.str "Jo".toList) JsonFields.nil))
      (Json.obj (JsonFields.cons ['a'] (Json.str "John".toList) JsonFields.nil)) = false := by
  decide

/-- C6 (amended): every `onChunk` snapshot is one of the values produced
by `extractPartialObjects` over the whole buffer — the brace-completion /
regex heuristic of `tryParsePartial`, which may bind a key to the
truncated prefix of an unterminated string instead of omitting it. -/
theorem C6_chunks_are_partials (st : SJState) (c : List Char) (v : Json)
    (h : SJEvent.chunk v ∈ (sjWrite true st c).2) :
    v ∈ extractPartialObjects (st.buffer ++ c) :=
  (sjWrite_chunk_mem true st c v h).1

/-- C6 witness: the truncated snapshot is among the partials extracted
from the buffer `\x7b"a":"Jo`. -/
theorem C6_witness :
    Json.obj (JsonFields.cons ['a'] (Json.str "Jo".toList) JsonFields.nil) ∈
      extractPartialObjects (([] : List Char) ++ "\x7b\"a\":\"Jo".toList) :=
  C6_chunks_are_partials { buffer := [], processedLength := 0, lastLogged := [] }
    ("\x7b\"a\":\"Jo".toList) _ (by decide)

/-- C7: the original claim fails: after `onComplete` fires for
`\x7b"a":1\x7d`, the next write's `onChunk` re-delivers that same closed
value, because the chunk pass rescans the whole untrimmed buffer. -/
theorem C7_counterexample :
    sjSession true ["\x7b\"a\":1\x7d".toList, "\x7b\"b\":1".toList] =
      [SJEvent.chunk (Json.obj (JsonFields.cons ['a'] (Json.num 1) JsonFields.nil)),
       SJEvent.complete (Json.obj (JsonFields.cons ['a'] (Json.num 1) JsonFields.nil)),
       SJEvent.chunk (Json.obj (JsonFields.cons ['a'] (Json.num 1) JsonFields.nil)),
       SJEvent.chunk (Json.obj (JsonFields.cons ['b'] (Json.num 1) JsonFields.nil))] := by
  decide

/-- C7 (amended): whenever the dedup string changes, a write rebroadcasts
through `onChunk` *every* truthy keyed partial extracted from the entire
buffer since the start of the session — including values whose
`onComplete` already fired on earlier writes. -/
theorem C7_rebroadcast (st : SJState) (c : List Char)
    (hne : stringifyPartials (extractPartialObjects (st.buffer ++ c)) ≠ st.lastLogged) :
    chunksOf (sjWrite true st c).2 =
      (extractPartialObjects (st.buffer ++ c)).filter
        fun p => jsTruthy p && decide (0 < jsKeysLen p) :=
  sjWrite_rebroadcast st c hne

/-- C7 witness: with `\x7b"a":1\x7d` already completed and still in the
buffer, writing `\x7b"b":1` re-delivers it as a chunk alongside the new
partial. -/
theorem C7_witness :
    chunksOf (sjWrite true { buffer := "\x7b\"a\":1\x7d".toList, processedLength := 7, lastLogged := "[\x7b\"a\":1\x7d]".toList } "\x7b\"b\":1".toList).2 =
      [Json.obj (JsonFields.cons ['a'] (Json.num 1) JsonFields.nil),
       Json.obj (JsonFields.cons ['b'] (Json.num 1) JsonFields.nil)] := by
  rw [C7_rebroadcast _ _ (by decide)]
  decide

/-- C8: the original claim fails: after three completed-and-delivered
objects and no open value, the buffer still holds all 21 input characters
— state grows with historical bytes. -/
theorem C8_counterexample :
    (sjRun false (List.replicate 3 ("\x7b\"a\":1\x7d".toList))).1.buffer.length = 21 ∧
    completesOf (sjRun false (List.replicate 3 ("\x7b\"a\":1\x7d".toList))).2 =
      List.replicate 3 (Json.obj (JsonFields.cons ['a'] (Json.num 1) JsonFields.nil)) := by
  decide

/-- C8 (amended): the assembler's buffer retains every byte ever written:
after any sequence of writes it equals the concatenation of all chunks, so
memory grows linearly with total historical input rather than being
bounded by the currently-open value. -/
theorem C8_buffer_retains_everything (hc : Bool) (cs : List (List Char)) :
    (sjRun hc cs).1.buffer = cs.flatten :=
  (sjRun_spec hc cs).1

/-- C9: the original equivalence claim fails: on
`\x7b"a":1\x7d\x7d\x7b"b":2\x7d` — a stray close brace between two
objects — the clarinet assembler delivers both objects while the
buffer-rescan assembler delivers only the first. -/
theorem C9_counterexample :
    clarinetCompletes ("\x7b\"a\":1\x7d\x7d\x7b\"b\":2\x7d".toList) =
      [Json.obj (JsonFields.cons ['a'] (Json.num 1) JsonFields.nil),
       Json.obj (JsonFields.cons ['b'] (Json.num 2) JsonFields.nil)] ∧
    completesOf (sjSession false ["\x7b\"a\":1\x7d\x7d\x7b\"b\":2\x7d".toList]) =
      [Json.obj (JsonFields.cons ['a'] (Json.num 1) JsonFields.nil)] := by decide

/-- C9 (amended): the two assemblers agree on the repository's demo
stream — both deliver exactly the three demo persons in order — but are
not equivalent in general (see the counterexample). -/
theorem C9_agree_on_demo :
    clarinetCompletes demoChunks.flatten = demoPersons ∧
    completesOf (sjSession false demoChunks) = demoPersons := by decide

/-- C10: only brace-delimited regions reach `JSON.parse`: every region the
scanner completes starts with `\x7b` and ends with `\x7d`, and a
brace-free input — a bare scalar, a bracket-only array, or garbage — is
silently consumed: no `onComplete`, no `onChunk`, no error, with or
without an `onChunk` callback. -/
theorem C10_only_brace_regions :
    (∀ (hc : Bool) (c : List Char), braceFree c → sjSession hc [c] = []) ∧
    (∀ buf r : List Char, r ∈ (extractCompleteJsonObjects buf).complete →
      r.head? = some '\x7b' ∧ r.getLast? = some '\x7d') :=
  ⟨fun hc c h => sjSession_braceFree hc c h,
   fun buf r h => extract_complete_braces buf r h⟩

/-- C10 witness: the braceless garbage `5 true ]x[` is fully silent, and
the region extracted from `x\x7b"a":1\x7dy` starts and ends with
braces. -/
theorem C10_witness :
    sjSession true ["5 true ]x[".toList] = [] ∧
    ("\x7b\"a\":1\x7d".toList.head? = some '\x7b' ∧
      "\x7b\"a\":1\x7d".toList.getLast? = some '\x7d') :=
  ⟨C10_only_brace_regions.1 true _ (by unfold braceFree; decide),
   C10_only_brace_regions.2 ("x\x7b\"a\":1\x7dy".toList) _ (by decide)⟩

end JStream
